import Mathlib

/-!
Markov n-gram chain: candidates and NGramChain.

A shallow embedding of `candidates.go` and `ngram_chain.go`.

Modelling conventions.

* Go `string` is `String`; Go `int` is `Int` and Go `uint` is `Nat`.  The
  counters of this program only ever move by one per observation, so the
  64-bit wrap-around of `int` is not modelled.
* A Go slice is a `List`; the in-place update `c.words[i].frequency++` is
  the list with that one element replaced.
* A method with a pointer receiver returns the updated receiver.
* The map `store` is an `AList` (association list without duplicate keys);
  the order of its entries carries no meaning.
* `randFunc` may be stateful (`rand.Intn` is): the chain carries
  `randFunc : Nat → Int → Int`, where `randFunc k bound` is the answer of
  the `k`-th call made during one operation.  The injected function is
  taken to return on every bound; what it returns is constrained only by
  the hypotheses of each theorem.
* A run-time panic of the chain's own code (an index or a slice bound out
  of range) is an explicit result: `Outcome.panic`, or `none`.
-/

namespace Markov

/-! ## candidates.go -/

/-- A word and its frequency (`wordFrequency`). -/
structure wordFrequency where
  word : String
  frequency : Int
deriving DecidableEq, Repr

/-- The words that followed a given context, with the number of
occurrences of that context (`candidates`). -/
structure candidates where
  words : List wordFrequency
  occurrences : Int
deriving DecidableEq, Repr

/-- The loop and the final `append` of `processCandidate`, on the slice
`c.words`: the first entry whose word is `candidate` has its frequency
incremented and the walk stops; when the walk ends without a match, the
entry `(candidate, 1)` is appended. -/
def processWords (candidate : String) : List wordFrequency → List wordFrequency
  | [] => [{ word := candidate, frequency := 1 }]
  | wf :: rest =>
    if candidate = wf.word then
      { wf with frequency := wf.frequency + 1 } :: rest
    else
      wf :: processWords candidate rest

/-- Go `(c *candidates) processCandidate(candidate string)`. -/
def candidates.processCandidate (c : candidates) (candidate : String) : candidates :=
  { words := processWords candidate c.words
    occurrences := c.occurrences + 1 }

/-- The `for ... range c.words` loop of `selectCandidate`, started with the
running `counter`: the entry at which the loop returns, or `none` when the
loop runs to its end. -/
def selectWalk (randomPos : Int) : Int → List wordFrequency → Option wordFrequency
  | _, [] => none
  | counter, wordFreq :: rest =>
    if counter + wordFreq.frequency > randomPos then
      some wordFreq
    else
      selectWalk randomPos (counter + wordFreq.frequency) rest

/-- Go `(c *candidates) selectCandidate(randFunc func(int) int) string`. -/
def candidates.selectCandidate (c : candidates) (randFunc : Int → Int) : String :=
  match selectWalk (randFunc c.occurrences) 0 c.words with
  | some wordFreq => wordFreq.word
  | none => ""

/-- Go `(c *candidates) getCandidate(word string) *wordFrequency`; `nil` is
`none`. -/
def candidates.getCandidate (c : candidates) (word : String) : Option wordFrequency :=
  c.words.find? (fun candidate => candidate.word = word)

/-! ## ngram_chain.go -/

/-- How a call that can fail ends: normally (`nil` error), with a returned
`error`, or with a run-time panic. -/
inductive Outcome where
  | ok
  | error (msg : String)
  | panic
deriving DecidableEq, Repr

/-- The chain (`NGramChain`).  The lock is not part of the sequential
model. -/
structure NGramChain where
  store : AList (fun _ : String => candidates)
  n : Nat
  seeds : List String
  randFunc : Nat → Int → Int

/-- Go `len(c.store)`. -/
def NGramChain.storeLen (c : NGramChain) : Nat :=
  c.store.keys.length

/-- Go `strings.Join(elems, " ")`. -/
def joinSpace (elems : List String) : String :=
  " ".intercalate elems

/-- Go `strings.Split(s, " ")` on the characters of `s`: the pieces between
the spaces; there is always at least one piece. -/
def splitSpaceChars : List Char → List (List Char)
  | [] => [[]]
  | ch :: rest =>
    if ch = ' ' then
      [] :: splitSpaceChars rest
    else
      match splitSpaceChars rest with
      | [] => [[ch]]
      | piece :: pieces => (ch :: piece) :: pieces

/-- Go `strings.Split(s, " ")`. -/
def splitSpace (s : String) : List String :=
  (splitSpaceChars s.data).map String.mk

/-- Go `strings.HasSuffix(s, suffix)`. -/
def hasSuffix (s suffix : String) : Bool :=
  suffix.data.isSuffixOf s.data

/-- Go `(c *NGramChain) processNgram(input []string) error`: the chain after
the call and how the call ended.  The slice expression
`input[:len(input)-1]` panics on an empty `input`, and `ngram[0]` panics on
an empty key, after the key has been stored. -/
def NGramChain.processNgram (c : NGramChain) (input : List String) : NGramChain × Outcome :=
  if input.length ≠ c.n then
    (c, Outcome.error ("error processing ngram, expected input length " ++ toString c.n
      ++ ", got " ++ toString input.length))
  else
    match input.getLast? with
    | none => (c, Outcome.panic)
    | some candidate =>
      let ngram := joinSpace (input.take (input.length - 1))
      match c.store.lookup ngram with
      | some cands =>
        ({ c with store := c.store.insert ngram (cands.processCandidate candidate) }, Outcome.ok)
      | none =>
        let cands := ({ words := [], occurrences := 0 } : candidates).processCandidate candidate
        let c1 := { c with store := c.store.insert ngram cands }
        match ngram.data with
        | [] => (c1, Outcome.panic)
        | ch :: _ =>
          if 'A' ≤ ch ∧ ch ≤ 'Z' then
            ({ c1 with seeds := c1.seeds ++ [ngram] }, Outcome.ok)
          else
            (c1, Outcome.ok)

/-- How the first loop of `ProcessText` ends. -/
inductive FirstNgram where
  | exhausted
  | indexPanic
  | full (ngram rest : List String)
deriving DecidableEq, Repr

/-- The first loop of `ProcessText` up to its call of `processNgram`: the
scanned words are stored in `ngram[ngramCount]` until `ngramCount == c.n`.
The result is the filled window with the words not yet scanned,
`exhausted` when the scanner ends first, `indexPanic` when
`ngram[ngramCount]` is out of range. -/
def fillFirst (n : Nat) : List String → Nat → List String → FirstNgram
  | _, _, [] => FirstNgram.exhausted
  | ngram, ngramCount, tok :: rest =>
    if ngramCount < ngram.length then
      if ngramCount + 1 = n then
        FirstNgram.full (ngram.set ngramCount tok) rest
      else
        fillFirst n (ngram.set ngramCount tok) (ngramCount + 1) rest
    else
      FirstNgram.indexPanic

/-- The second loop of `ProcessText`: every further word shifts the window
by one (`copy(nextNgram, ngram[1:])`, then the last cell is the word) and
the new window is processed. -/
def slide : NGramChain → List String → List String → NGramChain × Outcome
  | c, _, [] => (c, Outcome.ok)
  | c, ngram, tok :: rest =>
    if ngram.length = 0 then
      (c, Outcome.panic)
    else
      let nextNgram := ngram.tail ++ [tok]
      match c.processNgram nextNgram with
      | (c1, Outcome.ok) => slide c1 nextNgram rest
      | r => r

/-- Go `(c *NGramChain) ProcessText(text io.Reader) error`, on the words
that `bufio.ScanWords` yields for `text`. -/
def NGramChain.ProcessText (c : NGramChain) (tokens : List String) : NGramChain × Outcome :=
  match fillFirst c.n (List.replicate c.n "") 0 tokens with
  | FirstNgram.exhausted => (c, Outcome.ok)
  | FirstNgram.indexPanic => (c, Outcome.panic)
  | FirstNgram.full ngram rest =>
    match c.processNgram ngram with
    | (c1, Outcome.ok) => slide c1 ngram rest
    | r => r

/-- The `for k := range c.store` loop of `getRandomNGram`, over the keys in
the order `range` yields them. -/
def rangeWalk : Int → List String → String
  | _, [] => ""
  | pos, k :: rest => if pos = 0 then k else rangeWalk (pos - 1) rest

/-- Go `(c *NGramChain) getRandomNGram() string`.  `iter` is the order in
which `range c.store` yields the keys (Go leaves it unspecified); `none` is
the index-out-of-range panic of `c.seeds[...]`. -/
def NGramChain.getRandomNGram (c : NGramChain) (iter : List String) : Option String :=
  if c.seeds.length > 0 then
    let i := c.randFunc 0 c.seeds.length
    if 0 ≤ i ∧ i < c.seeds.length then c.seeds[i.toNat]? else none
  else
    some (rangeWalk (c.randFunc 0 c.storeLen) iter)

/-- The new context built in the loop of `GenerateRandomText`: the split
context without its first word, followed by the candidate. -/
def nextContext (ngram candidate : String) : String :=
  joinSpace ((splitSpace ngram).tail ++ [candidate])

/-- The `for i := uint(0); i < maxWords; i++` loop of `GenerateRandomText`;
`call` numbers the next call of `randFunc`, `text` is the content of the
string builder. -/
def generateLoop (c : NGramChain) : Nat → Nat → String → String → String
  | 0, _, _, text => text
  | remaining + 1, call, ngram, text =>
    match c.store.lookup ngram with
    | none => text
    | some cands =>
      let candidate := cands.selectCandidate (c.randFunc call)
      generateLoop c remaining (call + 1) (nextContext ngram candidate)
        (text ++ " " ++ candidate)

/-- The content of the string builder of `GenerateRandomText` when the loop
has ended, before the final period check (for a non-empty store). -/
def NGramChain.generateBody (c : NGramChain) (iter : List String) (maxWords : Nat) :
    Option String :=
  match c.getRandomNGram iter with
  | none => none
  | some ngram => some (generateLoop c maxWords 1 ngram ngram)

/-- Go `(c *NGramChain) GenerateRandomText(maxWords uint) string`; `none`
is a panic. -/
def NGramChain.GenerateRandomText (c : NGramChain) (iter : List String) (maxWords : Nat) :
    Option String :=
  if c.storeLen = 0 then
    some ""
  else
    match c.generateBody iter maxWords with
    | none => none
    | some text => if hasSuffix text "." then some text else some (text ++ ".")

/-- Go `(c *NGramChain) GetCandidate(prefix string) string`. -/
def NGramChain.GetCandidate (c : NGramChain) (pfx : String) : String :=
  match c.store.lookup pfx with
  | none => ""
  | some cands => cands.selectCandidate (c.randFunc 0)

/-- The `float32` result of `CandidateProbability`: the literal `0.0`, or
the quotient `float32(frequency) / float32(occurrences)`, kept as its two
operands. -/
inductive Probability where
  | zero
  | quotient (frequency occurrences : Int)
deriving DecidableEq, Repr

/-- Go `(c *NGramChain) CandidateProbability(prefix, candidate string)
(float32, error)`. -/
def NGramChain.CandidateProbability (c : NGramChain) (pfx candidate : String) :
    Except String Probability :=
  match c.store.lookup pfx with
  | none => Except.error "prefix does not exist"
  | some cands =>
    match cands.getCandidate candidate with
    | none => Except.ok Probability.zero
    | some wordFreq => Except.ok (Probability.quotient wordFreq.frequency cands.occurrences)

/-- Go `NewNGramChain(n uint) (*NGramChain, error)`; `intn` stands for
`rand.Intn`. -/
def NewNGramChain (intn : Nat → Int → Int) (n : Nat) : Except String NGramChain :=
  if n ≤ 1 then
    Except.error "error initialising NGramChain: n must be at least 2"
  else
    Except.ok { store := ∅, n := n, seeds := [], randFunc := intn }

/-! ## Specification-side vocabulary for candidates -/

/-- Sum of the frequencies of a list of entries. -/
def sumFrequencies (ws : List wordFrequency) : Int :=
  (ws.map wordFrequency.frequency).sum

/-- Cumulative sum of frequencies up to and including the entry at
position `i`. -/
def cumulative (ws : List wordFrequency) (i : Nat) : Int :=
  sumFrequencies (ws.take (i + 1))

/-- The invariant `total == Σ frequency`. -/
def candidates.Aligned (c : candidates) : Prop :=
  c.occurrences = sumFrequencies c.words

instance (c : candidates) : Decidable c.Aligned := by
  unfold candidates.Aligned; infer_instance

/-- The state after a sequence of `processCandidate` calls. -/
def candidates.processAll (c : candidates) (ws : List String) : candidates :=
  ws.foldl candidates.processCandidate c

/-- The word `selectCandidate` returns when the random position is `r`
and the walk starts with the running `counter`. -/
def wordAt (counter : Int) (ws : List wordFrequency) (r : Int) : String :=
  match selectWalk r counter ws with
  | some e => e.word
  | none => ""

/-- The candidate set of the tests (`getValidCandidates`). -/
def getValidCandidates : candidates :=
  { words := [⟨"potato", 1⟩, ⟨"banana", 4⟩, ⟨"tomato", 5⟩], occurrences := 10 }

/-! ## Specification-side vocabulary for the chain -/

/-- The context key of a window: its tokens without the last one, joined by
a single space. -/
def contextKey (window : List String) : String :=
  joinSpace (window.take (window.length - 1))

/-- The first character of `s` is an uppercase ASCII letter `'A'..'Z'`. -/
def startsUpper (s : String) : Prop :=
  ∃ ch, s.data.head? = some ch ∧ 'A' ≤ ch ∧ ch ≤ 'Z'

instance (s : String) : Decidable (startsUpper s) := by
  unfold startsUpper
  cases s.data.head? with
  | none => exact isFalse (by simp)
  | some ch =>
    exact decidable_of_iff ('A' ≤ ch ∧ ch ≤ 'Z') (by simp)

/-- The random function returns a value in `[0, bound)` for every positive
bound, at every call. -/
def NGramChain.RandInRange (c : NGramChain) : Prop :=
  ∀ (call : Nat) (bound : Int), 0 < bound → 0 ≤ c.randFunc call bound ∧ c.randFunc call bound < bound

/-- The context of a generation that started at `start`, after `i` steps:
each step looks the context up, selects a candidate with the next call of
the random function, and moves to the next context; a context that is not
a key stays. -/
def NGramChain.contextAfter (c : NGramChain) (start : String) : Nat → String
  | 0 => start
  | i + 1 =>
    match c.store.lookup (c.contextAfter start i) with
    | some cands =>
      nextContext (c.contextAfter start i) (cands.selectCandidate (c.randFunc (i + 1)))
    | none => c.contextAfter start i

/-- The candidate selected at step `i` (counted from 0) of a generation
that started at `start`. -/
def NGramChain.candidateAt (c : NGramChain) (start : String) (i : Nat) : String :=
  match c.store.lookup (c.contextAfter start i) with
  | some cands => cands.selectCandidate (c.randFunc (i + 1))
  | none => ""

/-- The text `start` followed by the first `k` selected candidates, each
preceded by one space. -/
def NGramChain.textAfter (c : NGramChain) (start : String) (k : Nat) : String :=
  (List.range k).foldl (fun text i => text ++ " " ++ c.candidateAt start i) start

/-- The chain of the tests (`getValidChain`), with `dummyRandFunc`. -/
def getValidChain : NGramChain :=
  { store := AList.singleton "I am" { words := [⟨"batman", 4⟩], occurrences := 4 }
    n := 3
    seeds := ["I am"]
    randFunc := fun _ _ => 0 }

/-- The contiguous windows of length `n` of the token sequence `t`, in
order: one for each start position `0 .. len(t) - n`. -/
def windows (n : Nat) (t : List String) : List (List String) :=
  (List.range (t.length + 1 - n)).map (fun i => (t.drop i).take n)

/-- The last token of a window. -/
def lastToken (window : List String) : String :=
  window.getLastD ""

/-- The last tokens of the windows whose context key is `key`, in order. -/
def lastsFor (ws : List (List String)) (key : String) : List String :=
  (ws.filter (fun w => contextKey w = key)).map lastToken

/-- The distinct elements of a list, in order of first occurrence. -/
def firstOccurrences : List String → List String
  | [] => []
  | x :: xs => x :: (firstOccurrences xs).filter (fun y => y ≠ x)

/-- The frequency recorded for `word`, 0 when `word` has no entry. -/
def candidates.frequencyOf (c : candidates) (word : String) : Int :=
  match c.getCandidate word with
  | some e => e.frequency
  | none => 0

/-- The calls `processNgram(w)` for the windows `w` of a list, in order,
stopping at the first call that does not end normally. -/
def processWindows : NGramChain → List (List String) → NGramChain × Outcome
  | c, [] => (c, Outcome.ok)
  | c, w :: ws =>
    match c.processNgram w with
    | (c1, Outcome.ok) => processWindows c1 ws
    | r => r

/-- The candidate set of one context after the observations `l`, from the
set `o` stored before (`none`: no set yet, the first observation creates
an empty one). -/
def recorded (o : Option candidates) (l : List String) : Option candidates :=
  l.foldl
    (fun acc x => some ((acc.getD { words := [], occurrences := 0 }).processCandidate x)) o

/-- The chain after the calls `processNgram(w)` for the windows `w` of a
list, one after the other, whatever way each call ends (a call that
panics leaves the state it had reached). -/
def processEach (c : NGramChain) (ws : List (List String)) : NGramChain :=
  ws.foldl (fun c1 w => (c1.processNgram w).1) c

/-- The occurrences of a stored candidate set, 0 when the context has no
set. -/
def occurrencesOf (o : Option candidates) : Int :=
  match o with
  | some cands => cands.occurrences
  | none => 0

/-- The frequency of `word` in a stored candidate set, 0 when the context
has no set or the set has no entry for `word`. -/
def frequencyIn (o : Option candidates) (word : String) : Int :=
  match o with
  | some cands => cands.frequencyOf word
  | none => 0

/-- The entries of a stored candidate set for the words other than `word`,
in order. -/
def entriesOtherThan (o : Option candidates) (word : String) : List wordFrequency :=
  match o with
  | some cands => cands.words.filter (fun e => e.word ≠ word)
  | none => []

/-- The token contains no space character. -/
def spaceFree (s : String) : Prop :=
  ' ' ∉ s.data

instance (s : String) : Decidable (spaceFree s) := by
  unfold spaceFree; infer_instance

/-- The number a `float32` result stands for, the rounding of `float32`
left aside: the exact quotient of the two operands, and `none` when the
divisor is 0, where the `float32` quotient is NaN or an infinity. -/
def Probability.value : Probability → Option ℚ
  | Probability.zero => some 0
  | Probability.quotient frequency occurrences =>
    if occurrences = 0 then none else some ((frequency : ℚ) / (occurrences : ℚ))

/-- A chain whose only candidate set holds one entry of frequency 0; its
occurrences, 0, equals the sum of its frequencies. -/
def zeroFrequencyChain : NGramChain :=
  { store := AList.singleton "I am" { words := [⟨"batman", 0⟩], occurrences := 0 }
    n := 3
    seeds := ["I am"]
    randFunc := fun _ _ => 0 }

/-- The chain of the example: a new trigram chain after the window
`I am batman` four times and the window `I am groot` once. -/
def batmanGrootChain : NGramChain :=
  processEach { store := ∅, n := 3, seeds := [], randFunc := fun _ _ => 0 }
    (List.replicate 4 ["I", "am", "batman"] ++ [["I", "am", "groot"]])

/-- The 75 calls of the concurrency test in one serial order: each of the
trigrams `a a b`, `a a c`, `a a d` 25 times. -/
def concurrencyTestCalls : List (List String) :=
  List.replicate 25 ["a", "a", "b"] ++ List.replicate 25 ["a", "a", "c"]
    ++ List.replicate 25 ["a", "a", "d"]

/-- The chains reachable from `NewNGramChain(n)` by a sequence of
`processNgram` and `ProcessText` calls whose tokens all satisfy `P`. -/
inductive ReachableBy (P : String → Prop) : NGramChain → Prop where
  | new (intn : Nat → Int → Int) (n : Nat) (c : NGramChain) :
      NewNGramChain intn n = Except.ok c → ReachableBy P c
  | ngram (c : NGramChain) (input : List String) :
      ReachableBy P c → (∀ tok ∈ input, P tok) → ReachableBy P (c.processNgram input).1
  | text (c : NGramChain) (tokens : List String) :
      ReachableBy P c → (∀ tok ∈ tokens, P tok) → ReachableBy P (c.ProcessText tokens).1

/-- Well-formedness of a stored candidate set: at least one entry, every
frequency at least 1, occurrences at least 1. -/
def candidates.WellFormed (cands : candidates) : Prop :=
  cands.words ≠ [] ∧ (∀ e ∈ cands.words, 1 ≤ e.frequency) ∧ 1 ≤ cands.occurrences

/-- Well-formedness of the chain: every stored candidate set is
well-formed, every seed is a key of the table, and no context is in
`seeds` more than once. -/
def NGramChain.WellFormed (c : NGramChain) : Prop :=
  (∀ key cands, c.store.lookup key = some cands → cands.WellFormed) ∧
  (∀ s ∈ c.seeds, s ∈ c.store) ∧ c.seeds.Nodup

/-- What training keeps true of a candidate set when every token satisfies
`P`: it is well-formed, its words satisfy `P`, and its occurrences equals
the sum of its frequencies. -/
def candidates.Sound (P : String → Prop) (cands : candidates) : Prop :=
  cands.words ≠ [] ∧ (∀ e ∈ cands.words, 1 ≤ e.frequency ∧ P e.word) ∧
  1 ≤ cands.occurrences ∧ cands.occurrences = sumFrequencies cands.words

/-- What training keeps true of a chain when every token satisfies `P`:
the arity is at least 2, every key is the join of `n - 1` tokens, every
stored set is sound, every seed is a key, and `seeds` has no duplicate. -/
def NGramChain.Invariant (P : String → Prop) (c : NGramChain) : Prop :=
  2 ≤ c.n ∧
  (∀ key cands, c.store.lookup key = some cands →
    (∃ ts : List String, ts.length = c.n - 1 ∧ (∀ s ∈ ts, P s) ∧ key = joinSpace ts) ∧
    cands.Sound P) ∧
  (∀ s ∈ c.seeds, s ∈ c.store) ∧ c.seeds.Nodup

/-- The candidates emitted in the first `k` steps of a generation that
started at `start`, in order. -/
def NGramChain.emitted (c : NGramChain) (start : String) (k : Nat) : List String :=
  (List.range k).map (c.candidateAt start)

/-- A token as a word scanner yields it, as far as the chain depends on it:
non-empty and without a space character. -/
def isToken (s : String) : Prop :=
  spaceFree s ∧ s ≠ ""

instance (s : String) : Decidable (isToken s) := by
  unfold isToken; infer_instance

/-- A trained chain: a new trigram chain after `ProcessText` on the words
`I am batman. I am groot.`, with a random function that returns 0. -/
def trainedExample : NGramChain :=
  (NGramChain.ProcessText { store := ∅, n := 3, seeds := [], randFunc := fun _ _ => 0 }
    ["I", "am", "batman.", "I", "am", "groot."]).1

/-! ## Specification of the generation walk

These definitions follow the words of the specification and use none of
the functions of the embedding of `GenerateRandomText` or
`selectCandidate`; the theorems compare the two. -/

/-- Specification, "dropping its first word": the characters after the
first space of a context, `none` for a context of a single word. -/
def dropFirstWord : List Char → Option (List Char)
  | [] => none
  | ch :: rest => if ch = ' ' then some rest else dropFirstWord rest

/-- Specification, "advance the context by dropping its first word and
appending the candidate": what is left of the context without its first
word, a space, and the candidate; the candidate alone when the context was
a single word. -/
def advanceContext (context candidate : String) : String :=
  match dropFirstWord context.data with
  | some rest => String.mk rest ++ " " ++ candidate
  | none => candidate

/-- Specification, "returns the word of the first entry whose cumulative
sum exceeds `r`": the word at the least position whose cumulative sum of
frequencies is greater than `r`, the empty string when there is none. -/
def sampleCandidate (cands : candidates) (r : Int) : String :=
  match (List.range cands.words.length).find?
      (fun i => decide (cumulative cands.words i > r)) with
  | some i =>
    match cands.words[i]? with
    | some e => e.word
    | none => ""
  | none => ""

/-- Specification: the context reached after `i` steps of a generation
that started at `start`.  A step looks the context up, samples a candidate
with the next answer of the random function (answer `i + 1`; answer 0
chose the start), and advances the context; a context that is not a key
ends the walk and stays. -/
def NGramChain.walkContext (c : NGramChain) (start : String) : Nat → String
  | 0 => start
  | i + 1 =>
    match c.store.lookup (c.walkContext start i) with
    | some cands =>
      advanceContext (c.walkContext start i)
        (sampleCandidate cands (c.randFunc (i + 1) cands.occurrences))
    | none => c.walkContext start i

/-- Specification: the candidate sampled at step `i` (counted from 0). -/
def NGramChain.walkCandidate (c : NGramChain) (start : String) (i : Nat) : String :=
  match c.store.lookup (c.walkContext start i) with
  | some cands => sampleCandidate cands (c.randFunc (i + 1) cands.occurrences)
  | none => ""

/-- Specification: the starting context followed by the first `k` sampled
candidates, each preceded by one space. -/
def NGramChain.walkText (c : NGramChain) (start : String) (k : Nat) : String :=
  (List.range k).foldl (fun text i => text ++ " " ++ c.walkCandidate start i) start

/-- The chain of the test `ok - multiple bigrams` of
`TestNGramChain_GenerateRandomText`, whose random function returns 2. -/
def multipleBigramsChain : NGramChain :=
  { store := List.toAList
      [⟨"It's a", { words := [⟨"trap", 1⟩, ⟨"wonderful", 5⟩], occurrences := 6 }⟩,
        ⟨"I am", { words := [⟨"batman", 4⟩], occurrences := 4 }⟩,
        ⟨"a wonderful",
          { words := [⟨"world.", 2⟩, ⟨"planet", 3⟩, ⟨"day", 2⟩], occurrences := 7 }⟩,
        ⟨"wonderful planet", { words := [⟨"we", 9⟩], occurrences := 9 }⟩,
        ⟨"planet we", { words := [⟨"live", 3⟩], occurrences := 3 }⟩,
        ⟨"we live", { words := [⟨"on", 5⟩, ⟨"tomorrow", 1⟩], occurrences := 6 }⟩]
    n := 3
    seeds := ["I am", "Nope", "It's a"]
    randFunc := fun _ _ => 2 }

/-! ## Theorems: candidates -/

theorem sumFrequencies_cons (e : wordFrequency) (ws : List wordFrequency) :
    sumFrequencies (e :: ws) = e.frequency + sumFrequencies ws := by
  simp [sumFrequencies]

theorem sumFrequencies_processWords (w : String) (ws : List wordFrequency) :
    sumFrequencies (processWords w ws) = sumFrequencies ws + 1 := by
  induction ws with
  | nil => simp [processWords, sumFrequencies]
  | cons e rest ih =>
    unfold processWords
    split
    · simp only [sumFrequencies_cons]; ring
    · simp only [sumFrequencies_cons, ih]; ring

theorem aligned_processCandidate (c : candidates) (w : String) (h : c.Aligned) :
    (c.processCandidate w).Aligned := by
  unfold candidates.Aligned at *
  simp [candidates.processCandidate, sumFrequencies_processWords, h]

theorem aligned_processAll (ws : List String) :
    ∀ c : candidates, c.Aligned → (c.processAll ws).Aligned := by
  induction ws with
  | nil => intro c h; simpa [candidates.processAll] using h
  | cons w rest ih =>
    intro c h
    have := ih (c.processCandidate w) (aligned_processCandidate c w h)
    simpa [candidates.processAll] using this

/-- C1: from a candidate set whose occurrences counter equals the sum of
its frequencies, the counter equals the sum of the frequencies after each
call of any finite sequence of `processCandidate` calls (after the first
`k` calls, for every `k`). -/
theorem C1_total_is_sum_after_every_call (c : candidates) (ws : List String)
    (h : c.occurrences = sumFrequencies c.words) (k : Nat) :
    (c.processAll (ws.take k)).occurrences
      = sumFrequencies (c.processAll (ws.take k)).words :=
  aligned_processAll (ws.take k) c h

theorem C1_total_is_sum_after_every_call_witness :
    (0 : Int) = sumFrequencies [] ∧
    (candidates.processAll ⟨[], 0⟩ (["a", "b", "a"].take 2)).occurrences
      = sumFrequencies (candidates.processAll ⟨[], 0⟩ (["a", "b", "a"].take 2)).words :=
  ⟨by decide, C1_total_is_sum_after_every_call ⟨[], 0⟩ ["a", "b", "a"] (by decide) 2⟩

theorem processWords_found (w : String) (ws : List wordFrequency) :
    ∀ (i : Nat) (h : i < ws.length), ws[i].word = w →
      (∀ (j : Nat) (hj : j < ws.length), j < i → ws[j].word ≠ w) →
      processWords w ws = ws.set i { word := ws[i].word, frequency := ws[i].frequency + 1 } := by
  induction ws with
  | nil => intro i h; simp at h
  | cons e rest ih =>
    intro i h hw hfirst
    cases i with
    | zero =>
      simp only [List.getElem_cons_zero] at hw
      simp [processWords, hw]
    | succ i =>
      have hne : ¬ w = e.word := by
        have := hfirst 0 (by simp) (by omega)
        simpa [eq_comm] using this
      have hi : i < rest.length := by simpa using h
      have := ih i hi (by simpa using hw) (by
        intro j hj hji
        have := hfirst (j + 1) (by simpa using hj) (by omega)
        simpa using this)
      simp [processWords, hne, this]

theorem processWords_absent (w : String) (ws : List wordFrequency)
    (h : ∀ e ∈ ws, e.word ≠ w) :
    processWords w ws = ws ++ [{ word := w, frequency := 1 }] := by
  induction ws with
  | nil => simp [processWords]
  | cons e rest ih =>
    have hne : ¬ w = e.word := by
      have := h e (by simp)
      simpa [eq_comm] using this
    have := ih (fun e he => h e (by simp [he]))
    simp [processWords, hne, this]

/-- C5: `processCandidate(w)` increments occurrences by exactly 1; when
some entry has word `w`, the first such entry (position `i`) has its
frequency incremented by 1 and the list of entries is otherwise the same
(same length, same order, same other entries); when no entry has word `w`,
the entries are the old ones followed by the new entry `(w, 1)`. -/
theorem C5_processCandidate_effect (c : candidates) (w : String) :
    (c.processCandidate w).occurrences = c.occurrences + 1 ∧
    (∀ (i : Nat) (h : i < c.words.length), c.words[i].word = w →
      (∀ (j : Nat) (hj : j < c.words.length), j < i → c.words[j].word ≠ w) →
      (c.processCandidate w).words
        = c.words.set i { word := w, frequency := c.words[i].frequency + 1 }) ∧
    ((∀ e ∈ c.words, e.word ≠ w) →
      (c.processCandidate w).words = c.words ++ [{ word := w, frequency := 1 }]) := by
  refine ⟨rfl, ?_, ?_⟩
  · intro i h hw hfirst
    have := processWords_found w c.words i h hw hfirst
    simpa [candidates.processCandidate, hw] using this
  · intro h
    exact processWords_absent w c.words h

theorem cumulative_cons_zero (e : wordFrequency) (ws : List wordFrequency) :
    cumulative (e :: ws) 0 = e.frequency := by
  simp [cumulative, sumFrequencies]

theorem cumulative_cons_succ (e : wordFrequency) (ws : List wordFrequency) (i : Nat) :
    cumulative (e :: ws) (i + 1) = e.frequency + cumulative ws i := by
  simp [cumulative, sumFrequencies]

theorem selectWalk_first (r : Int) (ws : List wordFrequency) :
    ∀ (k : Int) (i : Nat) (h : i < ws.length),
      (∀ j, j < i → k + cumulative ws j ≤ r) → k + cumulative ws i > r →
      selectWalk r k ws = some ws[i] := by
  induction ws with
  | nil => intro k i h; simp at h
  | cons e rest ih =>
    intro k i h hbefore hat
    cases i with
    | zero =>
      rw [cumulative_cons_zero] at hat
      simp [selectWalk, hat]
    | succ i =>
      have h0 := hbefore 0 (by omega)
      rw [cumulative_cons_zero] at h0
      have hi : i < rest.length := by simpa using h
      have := ih (k + e.frequency) i hi (by
        intro j hj
        have := hbefore (j + 1) (by omega)
        rw [cumulative_cons_succ] at this
        omega) (by
        rw [cumulative_cons_succ] at hat
        omega)
      simp only [selectWalk, List.getElem_cons_succ]
      rw [if_neg (by omega)]
      exact this

theorem selectWalk_none (r : Int) (ws : List wordFrequency) :
    ∀ (k : Int), (∀ i, i < ws.length → k + cumulative ws i ≤ r) →
      selectWalk r k ws = none := by
  induction ws with
  | nil => intro k _; rfl
  | cons e rest ih =>
    intro k hall
    have h0 := hall 0 (by simp)
    rw [cumulative_cons_zero] at h0
    have := ih (k + e.frequency) (by
      intro i hi
      have := hall (i + 1) (by simpa using hi)
      rw [cumulative_cons_succ] at this
      omega)
    simp only [selectWalk]
    rw [if_neg (by omega)]
    exact this

/-- C6: for every candidate set (aligned or not) and every random
function, with `r` the value it returns on the bound `occurrences`,
`selectCandidate` returns the word of the first entry, in insertion order,
whose cumulative sum of frequencies (up to and including that entry) is
strictly greater than `r`, and returns the empty string when no entry's
cumulative sum exceeds `r`. -/
theorem C6_selectCandidate_first_crossing (c : candidates) (randFunc : Int → Int) :
    (∀ (i : Nat) (h : i < c.words.length),
      (∀ j, j < i → cumulative c.words j ≤ randFunc c.occurrences) →
      cumulative c.words i > randFunc c.occurrences →
      c.selectCandidate randFunc = c.words[i].word) ∧
    ((∀ i, i < c.words.length → cumulative c.words i ≤ randFunc c.occurrences) →
      c.selectCandidate randFunc = "") := by
  constructor
  · intro i h hbefore hat
    have := selectWalk_first (randFunc c.occurrences) c.words 0 i h
      (by intro j hj; simpa using hbefore j hj) (by simpa using hat)
    simp [candidates.selectCandidate, this]
  · intro hall
    have := selectWalk_none (randFunc c.occurrences) c.words 0
      (by intro i hi; simpa using hall i hi)
    simp [candidates.selectCandidate, this]

theorem selectWalk_in_range (r : Int) (ws : List wordFrequency) :
    ∀ (k : Int), k ≤ r → r < k + sumFrequencies ws →
      ∃ e, e ∈ ws ∧ selectWalk r k ws = some e ∧ 1 ≤ e.frequency := by
  induction ws with
  | nil => intro k h1 h2; simp [sumFrequencies] at h2; omega
  | cons e rest ih =>
    intro k h1 h2
    rw [sumFrequencies_cons] at h2
    by_cases hc : k + e.frequency > r
    · exact ⟨e, by simp, by simp [selectWalk, hc], by omega⟩
    · obtain ⟨e1, hmem, hsel, hf⟩ := ih (k + e.frequency) (by omega) (by omega)
      exact ⟨e1, by simp [hmem], by simp only [selectWalk]; rw [if_neg hc]; exact hsel, hf⟩

/-- C3: for a candidate set whose occurrences equals the sum of its
frequencies and is at least 1, and a random function that returns `r` with
`0 ≤ r < occurrences`, the walk of `selectCandidate` returns at an entry of
the set (the fallback after the loop is not reached), the result is that
entry's word, and that entry's frequency is at least 1. -/
theorem C3_selectCandidate_returns_entry (c : candidates) (randFunc : Int → Int)
    (halign : c.occurrences = sumFrequencies c.words) (_hpos : 1 ≤ c.occurrences)
    (hr : 0 ≤ randFunc c.occurrences ∧ randFunc c.occurrences < c.occurrences) :
    ∃ e, e ∈ c.words ∧ selectWalk (randFunc c.occurrences) 0 c.words = some e ∧
      c.selectCandidate randFunc = e.word ∧ 1 ≤ e.frequency := by
  obtain ⟨e, hmem, hsel, hf⟩ := selectWalk_in_range (randFunc c.occurrences) c.words 0 hr.1
    (by rw [← halign]; simpa using hr.2)
  exact ⟨e, hmem, hsel, by simp [candidates.selectCandidate, hsel], hf⟩

theorem wordAt_cons_lt (k : Int) (e : wordFrequency) (rest : List wordFrequency) (r : Int)
    (h : r < k + e.frequency) : wordAt k (e :: rest) r = e.word := by
  simp [wordAt, selectWalk, h]

theorem wordAt_cons_ge (k : Int) (e : wordFrequency) (rest : List wordFrequency) (r : Int)
    (h : k + e.frequency ≤ r) : wordAt k (e :: rest) r = wordAt (k + e.frequency) rest r := by
  simp only [wordAt, selectWalk]
  rw [if_neg (by omega)]

theorem count_wordAt (ws : List wordFrequency) :
    ∀ (k : Int), (∀ e ∈ ws, 0 ≤ e.frequency) → (ws.map wordFrequency.word).Nodup →
      ∀ e ∈ ws,
        (((Finset.Ico k (k + sumFrequencies ws)).filter
          (fun r => wordAt k ws r = e.word)).card : Int) = e.frequency := by
  induction ws with
  | nil => intro k _ _ e he; simp at he
  | cons e0 rest ih =>
    intro k hnn hnd e he
    have h0 : 0 ≤ e0.frequency := hnn e0 (by simp)
    have hrest : 0 ≤ sumFrequencies rest := by
      unfold sumFrequencies
      apply List.sum_nonneg
      intro x hx
      simp only [List.mem_map] at hx
      obtain ⟨a, ha, rfl⟩ := hx
      exact hnn a (by simp [ha])
    rw [List.map_cons, List.nodup_cons] at hnd
    rw [sumFrequencies_cons]
    have hsplit : Finset.Ico k (k + (e0.frequency + sumFrequencies rest))
        = Finset.Ico k (k + e0.frequency)
          ∪ Finset.Ico (k + e0.frequency) (k + e0.frequency + sumFrequencies rest) := by
      rw [Finset.Ico_union_Ico_eq_Ico (by omega) (by omega)]
      congr 1; ring
    have hdisj : Disjoint
        ((Finset.Ico k (k + e0.frequency)).filter (fun r => wordAt k (e0 :: rest) r = e.word))
        ((Finset.Ico (k + e0.frequency) (k + e0.frequency + sumFrequencies rest)).filter
          (fun r => wordAt k (e0 :: rest) r = e.word)) := by
      apply Finset.disjoint_filter_filter
      rw [Finset.disjoint_left]
      intro a ha hb
      simp only [Finset.mem_Ico] at ha hb
      omega
    rw [hsplit, Finset.filter_union, Finset.card_union_of_disjoint hdisj]
    have hA : ∀ r ∈ Finset.Ico k (k + e0.frequency),
        (wordAt k (e0 :: rest) r = e.word ↔ e0.word = e.word) := by
      intro r hr
      simp only [Finset.mem_Ico] at hr
      rw [wordAt_cons_lt k e0 rest r hr.2]
    have hB : ∀ r ∈ Finset.Ico (k + e0.frequency) (k + e0.frequency + sumFrequencies rest),
        (wordAt k (e0 :: rest) r = e.word ↔ wordAt (k + e0.frequency) rest r = e.word) := by
      intro r hr
      simp only [Finset.mem_Ico] at hr
      rw [wordAt_cons_ge k e0 rest r hr.1]
    rw [Finset.filter_congr hA, Finset.filter_congr hB]
    by_cases hw : e0.word = e.word
    · have hee : e = e0 := by
        rcases List.mem_cons.1 he with h | h
        · exact h
        · exact absurd (List.mem_map.2 ⟨e, h, hw.symm⟩) hnd.1
      have hzero : (Finset.Ico (k + e0.frequency) (k + e0.frequency + sumFrequencies rest)).filter
          (fun r => wordAt (k + e0.frequency) rest r = e.word) = ∅ := by
        apply Finset.filter_false_of_mem
        intro r hr
        simp only [Finset.mem_Ico] at hr
        obtain ⟨e1, hmem, hsel, _⟩ := selectWalk_in_range r rest (k + e0.frequency) hr.1 hr.2
        simp only [wordAt, hsel]
        intro hc
        exact hnd.1 (List.mem_map.2 ⟨e1, hmem, by rw [hc, hw]⟩)
      rw [hzero, Finset.filter_true_of_mem (fun _ _ => hw)]
      simp [hee, h0]
    · have hmem : e ∈ rest := by
        rcases List.mem_cons.1 he with h | h
        · exact absurd (by rw [h]) hw
        · exact h
      rw [Finset.filter_false_of_mem (fun _ _ => hw)]
      have := ih (k + e0.frequency) (fun x hx => hnn x (by simp [hx])) hnd.2 e hmem
      simpa using this

/-- C2: weighted selection is exactly proportional to frequency.  For a
candidate set in which each word occurs at most once, whose frequencies
are non-negative (the data model's type for a frequency) and whose
occurrences equals the sum of the frequencies, and for every entry
`(w, f)`, the number of integers `r` with `0 ≤ r < occurrences` for which
`selectCandidate` with a random function returning `r` yields `w` is
exactly `f`. -/
theorem C2_selection_proportional_to_frequency (c : candidates)
    (hnodup : (c.words.map wordFrequency.word).Nodup)
    (hnonneg : ∀ e ∈ c.words, 0 ≤ e.frequency)
    (halign : c.occurrences = sumFrequencies c.words)
    (e : wordFrequency) (he : e ∈ c.words) :
    (((Finset.Ico 0 c.occurrences).filter
      (fun r => c.selectCandidate (fun _ => r) = e.word)).card : Int) = e.frequency := by
  have := count_wordAt c.words 0 hnonneg hnodup e he
  rw [zero_add, ← halign] at this
  exact this

theorem C2_selection_proportional_to_frequency_witness :
    ((getValidCandidates.words.map wordFrequency.word).Nodup ∧
      (∀ e ∈ getValidCandidates.words, 0 ≤ e.frequency) ∧
      getValidCandidates.occurrences = sumFrequencies getValidCandidates.words ∧
      (⟨"banana", 4⟩ : wordFrequency) ∈ getValidCandidates.words) ∧
    (((Finset.Ico 0 getValidCandidates.occurrences).filter
      (fun r => getValidCandidates.selectCandidate (fun _ => r) = "banana")).card : Int) = 4 :=
  ⟨⟨by decide, by decide, by decide, by decide⟩,
    C2_selection_proportional_to_frequency getValidCandidates (by decide) (by decide)
      (by decide) ⟨"banana", 4⟩ (by decide)⟩

theorem C3_selectCandidate_returns_entry_witness :
    (getValidCandidates.occurrences = sumFrequencies getValidCandidates.words ∧
      1 ≤ getValidCandidates.occurrences) ∧
    ∃ e, e ∈ getValidCandidates.words ∧
      selectWalk 6 0 getValidCandidates.words = some e ∧
      getValidCandidates.selectCandidate (fun _ => 6) = e.word ∧ 1 ≤ e.frequency :=
  ⟨⟨by decide, by decide⟩,
    C3_selectCandidate_returns_entry getValidCandidates (fun _ => 6) (by decide) (by decide)
      (by decide)⟩

theorem C5_processCandidate_effect_witness :
    (getValidCandidates.processCandidate "banana").words
        = [⟨"potato", 1⟩, ⟨"banana", 5⟩, ⟨"tomato", 5⟩] ∧
    (getValidCandidates.processCandidate "platano").words
        = [⟨"potato", 1⟩, ⟨"banana", 4⟩, ⟨"tomato", 5⟩, ⟨"platano", 1⟩] :=
  ⟨(C5_processCandidate_effect getValidCandidates "banana").2.1 1 (by decide) (by decide)
      (by decide),
    (C5_processCandidate_effect getValidCandidates "platano").2.2 (by decide)⟩

theorem C6_selectCandidate_first_crossing_witness :
    getValidCandidates.selectCandidate (fun _ => 0) = "potato" ∧
    getValidCandidates.selectCandidate (fun _ => 6) = "tomato" ∧
    getValidCandidates.selectCandidate (fun _ => 15) = "" :=
  ⟨(C6_selectCandidate_first_crossing getValidCandidates (fun _ => 0)).1 0 (by decide)
      (by decide) (by decide),
    (C6_selectCandidate_first_crossing getValidCandidates (fun _ => 6)).1 2 (by decide)
      (by decide) (by decide),
    (C6_selectCandidate_first_crossing getValidCandidates (fun _ => 15)).2 (by decide)⟩

/-! ## Theorems: the chain -/

/-- C7: for a window of exactly `n` tokens with context key `key`,
`processNgram` appends `key` to the end of `seeds` when `key` was not a key
of the table before the call and its first character is an uppercase ASCII
letter; in every other case `seeds` is left unchanged. -/
theorem C7_seed_appended_iff_new_and_upper (c : NGramChain) (input : List String)
    (hlen : input.length = c.n) :
    (contextKey input ∉ c.store ∧ startsUpper (contextKey input) →
      (c.processNgram input).1.seeds = c.seeds ++ [contextKey input]) ∧
    (¬ (contextKey input ∉ c.store ∧ startsUpper (contextKey input)) →
      (c.processNgram input).1.seeds = c.seeds) := by
  unfold NGramChain.processNgram
  rw [if_neg (by simp [hlen])]
  cases hlast : input.getLast? with
  | none =>
    have : input = [] := by simpa using hlast
    subst this
    simp [startsUpper, contextKey, joinSpace, String.intercalate]
  | some candidate =>
    simp only []
    cases hlook : c.store.lookup (joinSpace (input.take (input.length - 1))) with
    | some cands =>
      have hmem : contextKey input ∈ c.store := by
        rw [← AList.lookup_isSome]; unfold contextKey; rw [hlook]; rfl
      simp [hmem]
    | none =>
      have hmem : contextKey input ∉ c.store := by
        rw [← AList.lookup_eq_none]; exact hlook
      have hmem1 := hmem
      unfold contextKey at hmem1
      simp only []
      cases hdata : (joinSpace (input.take (input.length - 1))).data with
      | nil =>
        simp [startsUpper, contextKey, hdata]
      | cons ch rest =>
        simp only []
        by_cases hup : 'A' ≤ ch ∧ ch ≤ 'Z'
        · rw [if_pos hup]
          simp [startsUpper, contextKey, hdata, hup, hmem1]
        · rw [if_neg hup]
          simp [startsUpper, contextKey, hdata, hup, hmem1]

theorem C7_seed_appended_iff_new_and_upper_witness :
    (["It's", "a", "trap"].length = getValidChain.n) ∧
    (getValidChain.processNgram ["It's", "a", "trap"]).1.seeds = ["I am", "It's a"] ∧
    (getValidChain.processNgram ["maybe", "another", "time"]).1.seeds = ["I am"] ∧
    (getValidChain.processNgram ["I", "am", "groot"]).1.seeds = ["I am"] :=
  ⟨by decide,
    (C7_seed_appended_iff_new_and_upper getValidChain ["It's", "a", "trap"] (by decide)).1
      (by decide),
    (C7_seed_appended_iff_new_and_upper getValidChain ["maybe", "another", "time"]
      (by decide)).2 (by decide),
    (C7_seed_appended_iff_new_and_upper getValidChain ["I", "am", "groot"] (by decide)).2
      (by decide)⟩

/-- C10: `CandidateProbability` returns an error if and only if the
context is not a key of the table; when the context is present and the
word is not an entry of its candidate set it returns probability 0 with no
error. -/
theorem C10_probability_error_iff_context_absent (c : NGramChain) (pfx word : String) :
    ((∃ msg, c.CandidateProbability pfx word = Except.error msg) ↔ pfx ∉ c.store) ∧
    (∀ cands, c.store.lookup pfx = some cands → (∀ e ∈ cands.words, e.word ≠ word) →
      c.CandidateProbability pfx word = Except.ok Probability.zero) := by
  unfold NGramChain.CandidateProbability
  constructor
  · cases hlook : c.store.lookup pfx with
    | none =>
      have hmem : pfx ∉ c.store := by rw [← AList.lookup_eq_none]; exact hlook
      simp [hmem]
    | some cands =>
      have hmem : pfx ∈ c.store := by rw [← AList.lookup_isSome, hlook]; rfl
      simp only [hmem, not_true_eq_false, iff_false, not_exists]
      intro msg
      cases cands.getCandidate word <;> simp
  · intro cands hlook habsent
    rw [hlook]
    have : cands.getCandidate word = none := by
      unfold candidates.getCandidate
      rw [List.find?_eq_none]
      intro e he
      simpa using habsent e he
    simp [this]

theorem C10_probability_error_iff_context_absent_witness :
    (getValidChain.CandidateProbability "You are" "batman"
        = Except.error "prefix does not exist") ∧
    getValidChain.CandidateProbability "I am" "groot" = Except.ok Probability.zero :=
  ⟨rfl,
    (C10_probability_error_iff_context_absent getValidChain "I am" "groot").2
      ⟨[⟨"batman", 4⟩], 4⟩ (by decide) (by decide)⟩

theorem hasSuffix_dot (s : String) :
    hasSuffix s "." = true ↔ s.data.getLast? = some '.' := by
  unfold hasSuffix
  rw [List.isSuffixOf_iff_suffix]
  show ['.'] <:+ s.data ↔ _
  constructor
  · rintro ⟨t, ht⟩
    rw [← ht]; simp
  · intro h
    obtain ⟨t, ht⟩ : ∃ t, s.data = t ++ ['.'] := by
      rw [List.getLast?_eq_some_iff] at h
      exact h
    exact ⟨t, ht.symm⟩

theorem getRandomNGram_isSome (c : NGramChain) (iter : List String) (hrand : c.RandInRange) :
    ∃ ngram, c.getRandomNGram iter = some ngram := by
  unfold NGramChain.getRandomNGram
  by_cases hs : c.seeds.length > 0
  · rw [if_pos hs]
    have hr := hrand 0 c.seeds.length (by exact_mod_cast hs)
    simp only []
    rw [if_pos hr]
    have hlt : (c.randFunc 0 c.seeds.length).toNat < c.seeds.length := by omega
    exact ⟨c.seeds[(c.randFunc 0 c.seeds.length).toNat], by simp [hlt]⟩
  · rw [if_neg hs]
    exact ⟨_, rfl⟩

/-- C8: with a random function that returns a value in `[0, bound)` for
every positive bound, `GenerateRandomText` returns the empty string if the
table is empty, and otherwise returns a non-empty string whose last
character is `'.'`. -/
theorem C8_generate_empty_or_ends_with_period (c : NGramChain) (iter : List String)
    (maxWords : Nat) (hrand : c.RandInRange) :
    (c.store.keys = [] → c.GenerateRandomText iter maxWords = some "") ∧
    (c.store.keys ≠ [] → ∃ text, c.GenerateRandomText iter maxWords = some text ∧
      text ≠ "" ∧ text.data.getLast? = some '.') := by
  unfold NGramChain.GenerateRandomText NGramChain.storeLen
  constructor
  · intro h
    simp [h]
  · intro h
    rw [if_neg (by simpa using h)]
    obtain ⟨ngram, hng⟩ := getRandomNGram_isSome c iter hrand
    simp only [NGramChain.generateBody, hng]
    generalize generateLoop c maxWords 1 ngram ngram = body
    by_cases hsuf : hasSuffix body "." = true
    · rw [if_pos hsuf]
      have hlast := (hasSuffix_dot body).1 hsuf
      refine ⟨body, rfl, ?_, hlast⟩
      intro hb
      rw [hb] at hlast
      simp at hlast
    · rw [if_neg hsuf]
      refine ⟨body ++ ".", rfl, ?_, ?_⟩
      · intro hb
        have := congrArg String.data hb
        simp at this
      · simp

theorem C8_generate_empty_or_ends_with_period_witness :
    getValidChain.RandInRange ∧
    ((getValidChain.store.keys = [] → getValidChain.GenerateRandomText [] 100 = some "") ∧
    (getValidChain.store.keys ≠ [] → ∃ text, getValidChain.GenerateRandomText [] 100 = some text ∧
      text ≠ "" ∧ text.data.getLast? = some '.')) :=
  ⟨fun _ _ h => ⟨le_refl 0, h⟩,
    C8_generate_empty_or_ends_with_period getValidChain [] 100 (fun _ _ h => ⟨le_refl 0, h⟩)⟩

theorem foldl_range_succ_text (c : NGramChain) (start : String) (j k : Nat) (text : String) :
    (List.range (k + 1)).foldl (fun t i => t ++ " " ++ c.candidateAt start (j + i)) text
      = (List.range k).foldl (fun t i => t ++ " " ++ c.candidateAt start (j + 1 + i))
          (text ++ " " ++ c.candidateAt start j) := by
  rw [List.range_succ_eq_map, List.foldl_cons, List.foldl_map]
  simp only [Nat.add_zero]
  congr 1
  funext t i
  rw [show j + (i + 1) = j + 1 + i by omega]

theorem generateLoop_trace (c : NGramChain) (start : String) :
    ∀ (m j : Nat) (text : String),
      ∃ k, k ≤ m ∧ (∀ i, i < k → c.contextAfter start (j + i) ∈ c.store) ∧
        (k < m → c.contextAfter start (j + k) ∉ c.store) ∧
        generateLoop c m (j + 1) (c.contextAfter start j) text
          = (List.range k).foldl
              (fun t i => t ++ " " ++ c.candidateAt start (j + i)) text := by
  intro m
  induction m with
  | zero =>
    intro j text
    exact ⟨0, le_refl 0, by intro i hi; omega, by intro h; omega, rfl⟩
  | succ m ih =>
    intro j text
    cases hlook : c.store.lookup (c.contextAfter start j) with
    | none =>
      refine ⟨0, Nat.zero_le _, by intro i hi; omega, ?_, ?_⟩
      · intro _
        rw [Nat.add_zero, ← AList.lookup_eq_none]; exact hlook
      · simp [generateLoop, hlook]
    | some cands =>
      have hnext : c.contextAfter start (j + 1)
          = nextContext (c.contextAfter start j) (cands.selectCandidate (c.randFunc (j + 1))) := by
        simp [NGramChain.contextAfter, hlook]
      have hcand : c.candidateAt start j = cands.selectCandidate (c.randFunc (j + 1)) := by
        simp [NGramChain.candidateAt, hlook]
      obtain ⟨k, hk, hin, hout, heq⟩ := ih (j + 1) (text ++ " " ++ c.candidateAt start j)
      refine ⟨k + 1, by omega, ?_, ?_, ?_⟩
      · intro i hi
        cases i with
        | zero => rw [Nat.add_zero, ← AList.lookup_isSome, hlook]; rfl
        | succ i =>
          have := hin i (by omega)
          rwa [show j + 1 + i = j + (i + 1) by omega] at this
      · intro hlt
        have := hout (by omega)
        rwa [show j + 1 + k = j + (k + 1) by omega] at this
      · rw [foldl_range_succ_text, ← heq]
        simp only [generateLoop, hlook]
        rw [hnext, hcand]

/-! ## Theorems: training -/

theorem fillFirst_spec (n : Nat) :
    ∀ (toks ngram : List String) (count : Nat), ngram.length = n → count < n →
      fillFirst n ngram count toks
        = if toks.length < n - count then FirstNgram.exhausted
          else FirstNgram.full (ngram.take count ++ toks.take (n - count))
            (toks.drop (n - count)) := by
  intro toks
  induction toks with
  | nil =>
    intro ngram count hlen hc
    rw [if_pos (by simp; omega)]
    rfl
  | cons tok rest ih =>
    intro ngram count hlen hc
    unfold fillFirst
    rw [if_pos (by omega)]
    by_cases hlast : count + 1 = n
    · rw [if_pos hlast]
      have h1 : n - count = 1 := by omega
      rw [h1]
      simp only [List.length_cons, List.take_succ_cons, List.take_zero, List.drop_succ_cons,
        List.drop_zero]
      rw [if_neg (by omega)]
      congr 1
      rw [List.set_eq_take_append_cons_drop, if_pos (by omega)]
      rw [List.drop_of_length_le (by omega)]
    · rw [if_neg hlast]
      rw [ih (ngram.set count tok) (count + 1) (by simpa using hlen) (by omega)]
      have h1 : n - count = (n - (count + 1)) + 1 := by omega
      rw [h1]
      simp only [List.length_cons, List.take_succ_cons, List.drop_succ_cons]
      have h2 : (ngram.set count tok).take (count + 1) = ngram.take count ++ [tok] := by
        rw [List.set_eq_take_append_cons_drop, if_pos (by omega)]
        rw [List.take_append_eq_append_take]
        simp [List.take_take, List.length_take]
        have : min count ngram.length = count := by omega
        simp [this]
      rw [h2]
      by_cases hex : rest.length < n - (count + 1)
      · rw [if_pos hex, if_pos (by omega)]
      · rw [if_neg hex, if_neg (by omega)]
        simp

theorem processNgram_n (c : NGramChain) (input : List String) :
    (c.processNgram input).1.n = c.n := by
  unfold NGramChain.processNgram
  split
  · rfl
  · split
    · rfl
    · simp only []
      split
      · rfl
      · split
        · rfl
        · split <;> rfl

theorem slide_spec (n : Nat) (hn : 0 < n) :
    ∀ (rest : List String) (c : NGramChain) (w : List String), w.length = n →
      slide c w rest
        = processWindows c
            ((List.range rest.length).map (fun i => ((w ++ rest).drop (i + 1)).take n)) := by
  intro rest
  induction rest with
  | nil => intro c w _; simp [slide, processWindows]
  | cons tok rest ih =>
    intro c w hw
    obtain ⟨hd, tl, rfl⟩ : ∃ hd tl, w = hd :: tl := by
      cases w with
      | nil => simp at hw; omega
      | cons hd tl => exact ⟨hd, tl, rfl⟩
    have htl : tl.length + 1 = n := by simpa using hw
    have hfirst : ((hd :: tl ++ tok :: rest).drop 1).take n = tl ++ [tok] := by
      simp only [List.cons_append, List.drop_succ_cons, List.drop_zero]
      rw [List.take_append_eq_append_take]
      rw [List.take_of_length_le (by omega)]
      have : n - tl.length = 1 := by omega
      rw [this]; simp
    have hothers : ∀ i, ((hd :: tl ++ tok :: rest).drop (i + 1 + 1)).take n
        = (((tl ++ [tok]) ++ rest).drop (i + 1)).take n := by
      intro i
      simp
    rw [List.length_cons, List.range_succ_eq_map, List.map_cons, List.map_map]
    simp only [Nat.zero_add]
    rw [hfirst]
    have hmap : (List.range rest.length).map
          ((fun i => ((hd :: tl ++ tok :: rest).drop (i + 1)).take n) ∘ Nat.succ)
        = (List.range rest.length).map
          (fun i => (((tl ++ [tok]) ++ rest).drop (i + 1)).take n) := by
      apply List.map_congr_left
      intro i _
      exact hothers i
    rw [hmap]
    unfold slide
    rw [if_neg (by simp)]
    simp only [List.tail_cons]
    rw [processWindows]
    rcases hres : c.processNgram (tl ++ [tok]) with ⟨c1, o⟩
    cases o with
    | ok => simp only []; exact ih c1 (tl ++ [tok]) (by simp; omega)
    | error msg => rfl
    | panic => rfl

theorem ProcessText_eq_processWindows (c : NGramChain) (t : List String) (hn : 0 < c.n) :
    c.ProcessText t = processWindows c (windows c.n t) := by
  unfold NGramChain.ProcessText
  rw [fillFirst_spec c.n t (List.replicate c.n "") 0 (by simp) hn]
  simp only [Nat.sub_zero, List.take_zero, List.nil_append]
  by_cases hshort : t.length < c.n
  · rw [if_pos hshort]
    have : t.length + 1 - c.n = 0 := by omega
    simp [windows, this, processWindows]
  · rw [if_neg hshort]
    simp only []
    have hlen : t.length + 1 - c.n = (t.length - c.n) + 1 := by omega
    unfold windows
    rw [hlen, List.range_succ_eq_map, List.map_cons, List.map_map]
    simp only [List.drop_zero]
    rw [processWindows]
    rcases hres : c.processNgram (t.take c.n) with ⟨c1, o⟩
    cases o with
    | ok =>
      simp only []
      have hc1 : c1.n = c.n := by
        have := processNgram_n c (t.take c.n)
        rw [hres] at this; exact this
      rw [slide_spec c.n hn (t.drop c.n) c1 (t.take c.n) (by simp; omega)]
      congr 1
      rw [List.length_drop]
      apply List.map_congr_left
      intro i _
      simp [List.take_append_drop]
    | error msg => rfl
    | panic => rfl

theorem contextKey_nil : contextKey [] = "" := by
  simp [contextKey, joinSpace, String.intercalate]

theorem processNgram_good (c : NGramChain) (w : List String) (hlen : w.length = c.n)
    (hkey : contextKey w ≠ "") :
    (c.processNgram w).2 = Outcome.ok ∧
    (c.processNgram w).1.store
      = c.store.insert (contextKey w)
          (((c.store.lookup (contextKey w)).getD { words := [], occurrences := 0 }).processCandidate
            (lastToken w)) := by
  have hne : w ≠ [] := by
    intro h; rw [h] at hkey; exact hkey contextKey_nil
  have hlast : w.getLast? = some (lastToken w) := by
    unfold lastToken
    cases w with
    | nil => exact absurd rfl hne
    | cons a l => simp [List.getLast?_cons]
  have hdata : (contextKey w).data ≠ [] := by
    intro h
    apply hkey
    exact String.ext h
  unfold NGramChain.processNgram
  rw [if_neg (by simp [hlen]), hlast]
  unfold contextKey at hdata ⊢
  simp only []
  cases hlook : c.store.lookup (joinSpace (w.take (w.length - 1))) with
  | some cands => simp
  | none =>
    simp only []
    cases hd : (joinSpace (w.take (w.length - 1))).data with
    | nil => exact absurd hd hdata
    | cons ch rest =>
      simp only []
      by_cases hup : 'A' ≤ ch ∧ ch ≤ 'Z'
      · rw [if_pos hup]; simp
      · rw [if_neg hup]; simp

theorem lookup_processNgram_good (c : NGramChain) (w : List String) (hlen : w.length = c.n)
    (hkey : contextKey w ≠ "") (key : String) :
    (c.processNgram w).1.store.lookup key
      = if contextKey w = key then recorded (c.store.lookup key) [lastToken w]
        else c.store.lookup key := by
  rw [(processNgram_good c w hlen hkey).2]
  by_cases h : contextKey w = key
  · rw [if_pos h, ← h, AList.lookup_insert]
    rfl
  · rw [if_neg h, AList.lookup_insert_ne (fun hk => h hk.symm)]

theorem recorded_append (o : Option candidates) (l1 l2 : List String) :
    recorded o (l1 ++ l2) = recorded (recorded o l1) l2 := by
  simp [recorded, List.foldl_append]

theorem lastsFor_cons (w : List String) (ws : List (List String)) (key : String) :
    lastsFor (w :: ws) key
      = if contextKey w = key then lastToken w :: lastsFor ws key else lastsFor ws key := by
  unfold lastsFor
  by_cases h : contextKey w = key
  · simp [List.filter_cons, h]
  · simp [List.filter_cons, h]

theorem processWindows_good (ws : List (List String)) :
    ∀ (c : NGramChain), (∀ w ∈ ws, w.length = c.n ∧ contextKey w ≠ "") →
      (processWindows c ws).2 = Outcome.ok ∧
      ∀ key, (processWindows c ws).1.store.lookup key
        = recorded (c.store.lookup key) (lastsFor ws key) := by
  induction ws with
  | nil => intro c _; exact ⟨rfl, fun key => rfl⟩
  | cons w ws ih =>
    intro c hgood
    obtain ⟨hlen, hkey⟩ := hgood w (by simp)
    have hok := (processNgram_good c w hlen hkey).1
    have hlk := lookup_processNgram_good c w hlen hkey
    have hn := processNgram_n c w
    rw [processWindows]
    rcases hres : c.processNgram w with ⟨c1, o⟩
    rw [hres] at hok hlk hn
    simp only [] at hok hlk hn
    subst hok
    simp only []
    obtain ⟨ih1, ih2⟩ := ih c1 (by
      intro w1 hw1
      rw [hn]
      exact hgood w1 (by simp [hw1]))
    refine ⟨ih1, ?_⟩
    intro key
    rw [ih2 key, hlk key, lastsFor_cons]
    by_cases h : contextKey w = key
    · rw [if_pos h, if_pos h]
      rfl
    · rw [if_neg h, if_neg h]

theorem recorded_some (l : List String) :
    ∀ c : candidates, recorded (some c) l = some (c.processAll l) := by
  induction l with
  | nil => intro c; rfl
  | cons x l ih =>
    intro c
    have := ih (c.processCandidate x)
    simpa [recorded, candidates.processAll] using this

theorem recorded_none (l : List String) :
    recorded none l
      = if l = [] then none
        else some (candidates.processAll { words := [], occurrences := 0 } l) := by
  cases l with
  | nil => rfl
  | cons x l =>
    rw [if_neg (by simp)]
    have := recorded_some l (candidates.processCandidate { words := [], occurrences := 0 } x)
    simpa [recorded, candidates.processAll] using this

theorem processAll_occurrences (l : List String) :
    ∀ c : candidates, (c.processAll l).occurrences = c.occurrences + l.length := by
  induction l with
  | nil => intro c; simp [candidates.processAll]
  | cons x l ih =>
    intro c
    have := ih (c.processCandidate x)
    simp only [candidates.processAll, List.foldl_cons] at this ⊢
    rw [this]
    simp [candidates.processCandidate]
    ring

theorem processWords_map_word (x : String) (ws : List wordFrequency) :
    (processWords x ws).map wordFrequency.word
      = if x ∈ ws.map wordFrequency.word then ws.map wordFrequency.word
        else ws.map wordFrequency.word ++ [x] := by
  induction ws with
  | nil => simp [processWords]
  | cons e rest ih =>
    unfold processWords
    by_cases h : x = e.word
    · simp [h]
    · rw [if_neg h, List.map_cons, ih]
      by_cases hm : x ∈ rest.map wordFrequency.word
      · rw [if_pos hm, if_pos (by simp only [List.map_cons, List.mem_cons]; exact Or.inr hm)]
        rfl
      · rw [if_neg hm, if_neg (by
          simp only [List.map_cons, List.mem_cons]
          rintro (h1 | h1)
          · exact h h1
          · exact hm h1)]
        simp

theorem processAll_words (l : List String) :
    ∀ c : candidates, (c.processAll l).words.map wordFrequency.word
      = c.words.map wordFrequency.word
        ++ (firstOccurrences l).filter (fun y => y ∉ c.words.map wordFrequency.word) := by
  induction l with
  | nil => intro c; simp [candidates.processAll, firstOccurrences]
  | cons x l ih =>
    intro c
    have := ih (c.processCandidate x)
    simp only [candidates.processAll, List.foldl_cons] at this ⊢
    rw [this]
    simp only [candidates.processCandidate, processWords_map_word, firstOccurrences]
    by_cases hm : x ∈ c.words.map wordFrequency.word
    · rw [if_pos hm, List.filter_cons]
      simp only [hm, not_true_eq_false, decide_False, Bool.false_eq_true, if_false]
      rw [List.filter_filter]
      congr 1
      apply List.filter_congr
      intro y _
      by_cases hy : y = x
      · subst hy; simp [hm]
      · simp [hy]
    · rw [if_neg hm, List.filter_cons]
      simp only [hm, not_false_eq_true, decide_True, if_true]
      rw [List.filter_filter, List.append_assoc]
      congr 1
      simp only [List.singleton_append]
      congr 1
      apply List.filter_congr
      intro y _
      simp only [List.mem_append, List.mem_singleton, not_or, ne_eq, decide_not,
        Bool.and_eq_true, Bool.not_eq_true', decide_eq_false_iff_not, Bool.decide_and]

theorem find_processWords (x word : String) (ws : List wordFrequency) :
    (match (processWords x ws).find? (fun e => e.word = word) with
      | some e => e.frequency
      | none => 0)
      = (match ws.find? (fun e => e.word = word) with
          | some e => e.frequency
          | none => 0) + (if x = word then 1 else 0) := by
  induction ws with
  | nil =>
    by_cases h : x = word
    · simp [processWords, h]
    · simp [processWords, h]
  | cons e rest ih =>
    unfold processWords
    by_cases hx : x = e.word
    · rw [if_pos hx]
      by_cases hw : e.word = word
      · have : x = word := hx.trans hw
        simp [List.find?_cons, hw, this]
      · have : ¬ x = word := fun h => hw (hx ▸ h)
        simp [List.find?_cons, hw, this]
    · rw [if_neg hx]
      by_cases hw : e.word = word
      · have : ¬ x = word := fun h => hx (h.trans hw.symm)
        simp [List.find?_cons, hw, this]
      · simp only [List.find?_cons, hw, decide_False]
        exact ih

theorem frequencyOf_processCandidate (c : candidates) (x word : String) :
    (c.processCandidate x).frequencyOf word
      = c.frequencyOf word + (if x = word then 1 else 0) := by
  unfold candidates.frequencyOf candidates.getCandidate candidates.processCandidate
  exact find_processWords x word c.words

theorem processAll_frequencyOf (l : List String) (word : String) :
    ∀ c : candidates, (c.processAll l).frequencyOf word = c.frequencyOf word + l.count word := by
  induction l with
  | nil => intro c; simp [candidates.processAll]
  | cons x l ih =>
    intro c
    have := ih (c.processCandidate x)
    simp only [candidates.processAll, List.foldl_cons] at this ⊢
    rw [this, frequencyOf_processCandidate, List.count_cons]
    by_cases h : x = word
    · simp [h]; ring
    · simp [h]

theorem intercalate_go_ne (s : String) (l : List String) :
    ∀ acc : String, acc ≠ "" → String.intercalate.go acc s l ≠ "" := by
  induction l with
  | nil => intro acc h; simpa [String.intercalate.go] using h
  | cons a l ih =>
    intro acc h
    rw [String.intercalate.go]
    apply ih
    intro hc
    apply h
    have := congrArg String.data hc
    simp only [String.data_append, List.append_eq_nil] at this
    exact String.ext this.1.1

theorem joinSpace_ne (a : String) (l : List String) (ha : a ≠ "") :
    joinSpace (a :: l) ≠ "" := by
  unfold joinSpace
  rw [String.intercalate]
  exact intercalate_go_ne " " l a ha

theorem windows_good (n : Nat) (t : List String) (hn : 2 ≤ n) (htok : ∀ tok ∈ t, tok ≠ "") :
    ∀ w ∈ windows n t, w.length = n ∧ contextKey w ≠ "" := by
  intro w hw
  unfold windows at hw
  rw [List.mem_map] at hw
  obtain ⟨i, hi, rfl⟩ := hw
  rw [List.mem_range] at hi
  have hlen : ((t.drop i).take n).length = n := by
    rw [List.length_take, List.length_drop]; omega
  refine ⟨hlen, ?_⟩
  unfold contextKey
  rw [hlen]
  cases hd : t.drop i with
  | nil =>
    have := congrArg List.length hd
    rw [List.length_drop] at this
    simp at this; omega
  | cons a rest =>
    have ha : a ∈ t := by
      apply List.mem_of_mem_drop (n := i)
      rw [hd]; simp
    obtain ⟨m, rfl⟩ : ∃ m, n = m + 2 := ⟨n - 2, by omega⟩
    simp only [List.take_succ_cons, Nat.add_one_sub_one]
    exact joinSpace_ne a _ (htok a ha)

theorem lastsFor_eq_nil_iff (ws : List (List String)) (key : String) :
    lastsFor ws key = [] ↔ ¬ ∃ w ∈ ws, contextKey w = key := by
  unfold lastsFor
  rw [List.map_eq_nil_iff, List.filter_eq_nil_iff]
  simp

theorem lastsFor_count (ws : List (List String)) (key word : String) :
    (lastsFor ws key).count word
      = (ws.filter (fun w => contextKey w = key ∧ lastToken w = word)).length := by
  unfold lastsFor
  induction ws with
  | nil => simp
  | cons w ws ih =>
    by_cases h1 : contextKey w = key
    · by_cases h2 : lastToken w = word
      · simp [List.filter_cons, h1, h2, ih]
      · simp [List.filter_cons, h1, h2, ih, List.count_cons]
    · simp [List.filter_cons, h1, ih]

theorem firstOccurrences_nodup (l : List String) : (firstOccurrences l).Nodup := by
  induction l with
  | nil => simp [firstOccurrences]
  | cons x xs ih =>
    rw [firstOccurrences, List.nodup_cons]
    exact ⟨by simp [List.mem_filter], ih.filter _⟩

theorem frequencyOf_of_mem (ws : List wordFrequency) (occ : Int)
    (hnd : (ws.map wordFrequency.word).Nodup) (e : wordFrequency) (he : e ∈ ws) :
    candidates.frequencyOf { words := ws, occurrences := occ } e.word = e.frequency := by
  unfold candidates.frequencyOf candidates.getCandidate
  simp only []
  induction ws with
  | nil => simp at he
  | cons a rest ih =>
    rw [List.map_cons, List.nodup_cons] at hnd
    by_cases ha : a.word = e.word
    · have hea : e = a := by
        rcases List.mem_cons.1 he with h | h
        · exact h
        · exact absurd (List.mem_map.2 ⟨e, h, ha.symm⟩) hnd.1
      simp [List.find?_cons, hea]
    · have hmem : e ∈ rest := by
        rcases List.mem_cons.1 he with h | h
        · exact absurd (by rw [h]) ha
        · exact h
      simp only [List.find?_cons, ha, decide_False]
      exact ih hnd.2 hmem

/-- C4: for `n ≥ 2` and a finite sequence `t` of non-empty tokens,
`ProcessText` on a freshly constructed chain of arity `n` ends normally and
leaves a table such that: there are `len(t) - n + 1` windows; the keys are
exactly the context keys (first `n - 1` tokens joined by a single space) of
the contiguous length-`n` windows of `t`; and for each key, the stored
occurrences is the number of windows with that context, the frequency of
each word (0 for a word without entry, and the frequency of each entry for
its own word) is the number of windows with that context whose last token
is the word, and the entries are the last tokens in order of first
occurrence. -/
theorem C4_train_counts_windows (intn : Nat → Int → Int) (n : Nat) (t : List String)
    (c0 : NGramChain) (hn : 2 ≤ n) (htok : ∀ tok ∈ t, tok ≠ "")
    (hnew : NewNGramChain intn n = Except.ok c0) :
    (c0.ProcessText t).2 = Outcome.ok ∧
    (windows n t).length = t.length + 1 - n ∧
    (∀ key, key ∈ (c0.ProcessText t).1.store ↔ ∃ w ∈ windows n t, contextKey w = key) ∧
    (∀ key cands, (c0.ProcessText t).1.store.lookup key = some cands →
      cands.occurrences = ((windows n t).filter (fun w => contextKey w = key)).length ∧
      (∀ word, cands.frequencyOf word
        = ((windows n t).filter (fun w => contextKey w = key ∧ lastToken w = word)).length) ∧
      (∀ e ∈ cands.words, e.frequency
        = ((windows n t).filter (fun w => contextKey w = key ∧ lastToken w = e.word)).length) ∧
      cands.words.map wordFrequency.word = firstOccurrences (lastsFor (windows n t) key)) := by
  have hc0 : c0 = { store := ∅, n := n, seeds := [], randFunc := intn } := by
    unfold NewNGramChain at hnew
    rw [if_neg (by omega)] at hnew
    injection hnew with h
    exact h.symm
  have hc0n : c0.n = n := by rw [hc0]
  have hstore : ∀ key, c0.store.lookup key = none := by
    intro key; rw [hc0]; exact AList.lookup_empty key
  have hPT : c0.ProcessText t = processWindows c0 (windows n t) := by
    rw [ProcessText_eq_processWindows c0 t (by omega), hc0n]
  obtain ⟨hok, hlk⟩ := processWindows_good (windows n t) c0 (by
    intro w hw
    rw [hc0n]
    exact windows_good n t hn htok w hw)
  rw [hPT]
  have hlk1 : ∀ key, (processWindows c0 (windows n t)).1.store.lookup key
      = if lastsFor (windows n t) key = [] then none
        else some (candidates.processAll { words := [], occurrences := 0 }
          (lastsFor (windows n t) key)) := by
    intro key
    rw [hlk key, hstore key, recorded_none]
  refine ⟨hok, by simp [windows], ?_, ?_⟩
  · intro key
    rw [← AList.lookup_isSome, hlk1 key]
    by_cases h : lastsFor (windows n t) key = []
    · rw [if_pos h]
      have := (lastsFor_eq_nil_iff _ _).1 h
      simp only [Option.isSome_none, Bool.false_eq_true, false_iff]
      exact this
    · rw [if_neg h]
      have := (not_congr (lastsFor_eq_nil_iff (windows n t) key)).1 h
      simp only [Option.isSome_some, true_iff]
      exact not_not.1 this
  · intro key cands hcands
    rw [hlk1 key] at hcands
    by_cases h : lastsFor (windows n t) key = []
    · rw [if_pos h] at hcands
      exact absurd hcands (by simp)
    · rw [if_neg h] at hcands
      injection hcands with hcands
      subst hcands
      have hwords : (candidates.processAll { words := [], occurrences := 0 }
            (lastsFor (windows n t) key)).words.map wordFrequency.word
          = firstOccurrences (lastsFor (windows n t) key) := by
        rw [processAll_words]
        simp
      have hfreq : ∀ word, (candidates.processAll { words := [], occurrences := 0 }
            (lastsFor (windows n t) key)).frequencyOf word
          = ((windows n t).filter
              (fun w => contextKey w = key ∧ lastToken w = word)).length := by
        intro word
        rw [processAll_frequencyOf, lastsFor_count]
        simp [candidates.frequencyOf, candidates.getCandidate]
      refine ⟨?_, hfreq, ?_, hwords⟩
      · rw [processAll_occurrences]
        simp [lastsFor]
      · intro e he
        rw [← hfreq e.word]
        exact (frequencyOf_of_mem _ _ (by rw [hwords]; exact firstOccurrences_nodup _) e he).symm

theorem C4_train_counts_windows_witness :
    (2 ≤ 3 ∧ (∀ tok ∈ ["a", "b", "c", "d", "e", "f"], tok ≠ "") ∧
      NewNGramChain (fun _ _ => 0) 3
        = Except.ok { store := ∅, n := 3, seeds := [], randFunc := fun _ _ => 0 }) ∧
    (NGramChain.ProcessText { store := ∅, n := 3, seeds := [], randFunc := fun _ _ => 0 }
      ["a", "b", "c", "d", "e", "f"]).1.store.entries
      = [⟨"d e", ⟨[⟨"f", 1⟩], 1⟩⟩, ⟨"c d", ⟨[⟨"e", 1⟩], 1⟩⟩, ⟨"b c", ⟨[⟨"d", 1⟩], 1⟩⟩,
          ⟨"a b", ⟨[⟨"c", 1⟩], 1⟩⟩] ∧
    (NGramChain.ProcessText { store := ∅, n := 3, seeds := [], randFunc := fun _ _ => 0 }
      ["a", "b", "c", "d", "e", "f"]).2 = Outcome.ok :=
  ⟨⟨by decide, by decide, rfl⟩, by decide,
    (C4_train_counts_windows (fun _ _ => 0) 3 ["a", "b", "c", "d", "e", "f"]
      { store := ∅, n := 3, seeds := [], randFunc := fun _ _ => 0 } (by decide) (by decide)
      rfl).1⟩

/-! ## Theorems: construction, arity and short inputs -/

/-- C12: `NewNGramChain(n)` fails with an error if and only if `n ≤ 1`; for
every `n ≥ 2` it returns a chain with arity `n`, an empty table and no
seeds. -/
theorem C12_new_chain_arity_check (intn : Nat → Int → Int) (n : Nat) :
    ((∃ msg, NewNGramChain intn n = Except.error msg) ↔ n ≤ 1) ∧
    (2 ≤ n → ∃ c, NewNGramChain intn n = Except.ok c ∧ c.n = n ∧ c.store = ∅ ∧
      c.store.keys = [] ∧ c.seeds = []) := by
  unfold NewNGramChain
  constructor
  · by_cases h : n ≤ 1
    · simp [h]
    · simp [h]
  · intro h
    rw [if_neg (by omega)]
    exact ⟨_, rfl, rfl, rfl, rfl, rfl⟩

theorem C12_new_chain_arity_check_witness :
    (∃ msg, NewNGramChain (fun _ _ => 0) 1 = Except.error msg) ∧
    (∃ c, NewNGramChain (fun _ _ => 0) 3 = Except.ok c ∧ c.n = 3 ∧ c.store = ∅ ∧
      c.store.keys = [] ∧ c.seeds = []) :=
  ⟨(C12_new_chain_arity_check (fun _ _ => 0) 1).1.2 (by decide),
    (C12_new_chain_arity_check (fun _ _ => 0) 3).2 (by decide)⟩

theorem processNgram_error_iff (c : NGramChain) (input : List String) :
    (∃ msg, (c.processNgram input).2 = Outcome.error msg) ↔ input.length ≠ c.n := by
  unfold NGramChain.processNgram
  by_cases h : input.length ≠ c.n
  · rw [if_pos h]
    simp [h]
  · rw [if_neg h]
    simp only [h, iff_false, not_exists]
    intro msg
    split
    · simp
    · split
      · simp
      · split
        · simp
        · split <;> simp

/-- C13: `processNgram` returns an error if and only if the length of the
token list differs from `n`, and when it returns an error the chain (its
table and its seeds) is exactly as before the call. -/
theorem C13_processNgram_arity_error (c : NGramChain) (input : List String) :
    ((∃ msg, (c.processNgram input).2 = Outcome.error msg) ↔ input.length ≠ c.n) ∧
    (∀ msg, (c.processNgram input).2 = Outcome.error msg →
      (c.processNgram input).1 = c ∧
      (c.processNgram input).1.store = c.store ∧ (c.processNgram input).1.seeds = c.seeds) := by
  refine ⟨processNgram_error_iff c input, ?_⟩
  intro msg hmsg
  have hlen : input.length ≠ c.n := (processNgram_error_iff c input).1 ⟨msg, hmsg⟩
  have : (c.processNgram input).1 = c := by
    unfold NGramChain.processNgram
    rw [if_pos hlen]
  rw [this]
  exact ⟨rfl, rfl, rfl⟩

theorem C13_processNgram_arity_error_witness :
    (∃ msg, (getValidChain.processNgram ["I", "am"]).2 = Outcome.error msg) ∧
    (getValidChain.processNgram ["I", "am"]).2
      = Outcome.error "error processing ngram, expected input length 3, got 2" ∧
    (getValidChain.processNgram ["I", "am"]).1.store = getValidChain.store ∧
    (getValidChain.processNgram ["I", "am"]).1.seeds = getValidChain.seeds :=
  ⟨(C13_processNgram_arity_error getValidChain ["I", "am"]).1.2 (by decide),
    by decide,
    ((C13_processNgram_arity_error getValidChain ["I", "am"]).2
      "error processing ngram, expected input length 3, got 2" (by decide)).2⟩

/-- C15: for a chain of arity `n ≥ 2` and a token sequence with fewer than
`n` tokens (the empty sequence included), `ProcessText` returns no error
and leaves the chain, its table and its seeds exactly as they were. -/
theorem C15_short_input_no_effect (c : NGramChain) (t : List String) (hn : 2 ≤ c.n)
    (hshort : t.length < c.n) :
    (c.ProcessText t).2 = Outcome.ok ∧ (c.ProcessText t).1 = c ∧
    (c.ProcessText t).1.store = c.store ∧ (c.ProcessText t).1.seeds = c.seeds := by
  have hw : windows c.n t = [] := by
    have : t.length + 1 - c.n = 0 := by omega
    simp [windows, this]
  rw [ProcessText_eq_processWindows c t (by omega), hw]
  exact ⟨rfl, rfl, rfl, rfl⟩

theorem C15_short_input_no_effect_witness :
    (2 ≤ getValidChain.n ∧ ["I", "am"].length < getValidChain.n) ∧
    (getValidChain.ProcessText ["I", "am"]).2 = Outcome.ok ∧
    (getValidChain.ProcessText ["I", "am"]).1 = getValidChain ∧
    (getValidChain.ProcessText ["I", "am"]).1.store = getValidChain.store ∧
    (getValidChain.ProcessText ["I", "am"]).1.seeds = getValidChain.seeds :=
  ⟨⟨by decide, by decide⟩,
    C15_short_input_no_effect getValidChain ["I", "am"] (by decide) (by decide)⟩

theorem windows_length (n : Nat) (t : List String) :
    ∀ w ∈ windows n t, w.length = n := by
  intro w hw
  unfold windows at hw
  rw [List.mem_map] at hw
  obtain ⟨i, hi, rfl⟩ := hw
  rw [List.mem_range] at hi
  rw [List.length_take, List.length_drop]
  omega

theorem processWindows_no_error (ws : List (List String)) :
    ∀ (c : NGramChain), (∀ w ∈ ws, w.length = c.n) →
      ∀ msg, (processWindows c ws).2 ≠ Outcome.error msg := by
  induction ws with
  | nil => intro c _ msg; simp [processWindows]
  | cons w ws ih =>
    intro c hlen msg
    have hw := hlen w (by simp)
    have hne : ∀ m, (c.processNgram w).2 ≠ Outcome.error m := by
      intro m hm
      exact (processNgram_error_iff c w).1 ⟨m, hm⟩ hw
    have hn := processNgram_n c w
    rw [processWindows]
    rcases hres : c.processNgram w with ⟨c1, o⟩
    rw [hres] at hne hn
    simp only [] at hne hn
    cases o with
    | ok =>
      simp only []
      exact ih c1 (by intro w1 hw1; rw [hn]; exact hlen w1 (by simp [hw1])) msg
    | error m => exact absurd rfl (hne m)
    | panic => simp

/-- C14: for a chain of arity `n ≥ 2` and every finite sequence of tokens,
`ProcessText` calls `processNgram` on the contiguous windows of the
sequence, every one of which has length exactly `n`, and returns no error;
on non-empty tokens (those a word scanner yields) it ends normally. -/
theorem C14_train_never_arity_error (c : NGramChain) (t : List String) (hn : 2 ≤ c.n) :
    c.ProcessText t = processWindows c (windows c.n t) ∧
    (∀ w ∈ windows c.n t, w.length = c.n) ∧
    (∀ msg, (c.ProcessText t).2 ≠ Outcome.error msg) ∧
    ((∀ tok ∈ t, tok ≠ "") → (c.ProcessText t).2 = Outcome.ok) := by
  have hPT := ProcessText_eq_processWindows c t (by omega)
  refine ⟨hPT, windows_length c.n t, ?_, ?_⟩
  · intro msg
    rw [hPT]
    exact processWindows_no_error (windows c.n t) c (windows_length c.n t) msg
  · intro htok
    rw [hPT]
    exact (processWindows_good (windows c.n t) c (windows_good c.n t hn htok)).1

theorem C14_train_never_arity_error_witness :
    2 ≤ getValidChain.n ∧
    (getValidChain.ProcessText ["I", "am", "batman.", "I", "am", "groot."]).2 = Outcome.ok :=
  ⟨by decide,
    (C14_train_never_arity_error getValidChain ["I", "am", "batman.", "I", "am", "groot."]
      (by decide)).2.2.2 (by decide)⟩

/-! ## Theorems: uniqueness of words -/

theorem nodup_processCandidate (c : candidates) (w : String)
    (h : (c.words.map wordFrequency.word).Nodup) :
    ((c.processCandidate w).words.map wordFrequency.word).Nodup := by
  simp only [candidates.processCandidate, processWords_map_word]
  by_cases hm : w ∈ c.words.map wordFrequency.word
  · rw [if_pos hm]; exact h
  · rw [if_neg hm]
    rw [List.nodup_append]
    refine ⟨h, by simp, ?_⟩
    intro a ha hb
    simp only [List.mem_singleton] at hb
    subst hb
    exact hm ha

theorem nodup_processAll (ws : List String) :
    ∀ c : candidates, (c.words.map wordFrequency.word).Nodup →
      ((c.processAll ws).words.map wordFrequency.word).Nodup := by
  induction ws with
  | nil => intro c h; simpa [candidates.processAll] using h
  | cons w rest ih =>
    intro c h
    have := ih (c.processCandidate w) (nodup_processCandidate c w h)
    simpa [candidates.processAll] using this

/-- C19: from a candidate set in which each word occurs in at most one
entry (the empty set in particular), each word still occurs in at most one
entry after each call of any finite sequence of `processCandidate` calls
(after the first `k` calls, for every `k`). -/
theorem C19_words_stay_unique (c : candidates) (ws : List String)
    (h : (c.words.map wordFrequency.word).Nodup) (k : Nat) :
    ((c.processAll (ws.take k)).words.map wordFrequency.word).Nodup :=
  nodup_processAll (ws.take k) c h

theorem C19_words_stay_unique_witness :
    ((([] : List wordFrequency).map wordFrequency.word).Nodup) ∧
    ((candidates.processAll ⟨[], 0⟩ (["a", "b", "a"].take 3)).words.map
      wordFrequency.word).Nodup :=
  ⟨by decide, C19_words_stay_unique ⟨[], 0⟩ ["a", "b", "a"] (by decide) 3⟩

/-! ## Theorems: repeated and reordered training -/

theorem processNgram_store (c : NGramChain) (w : List String) (hlen : w.length = c.n)
    (hne : w ≠ []) :
    (c.processNgram w).1.store
      = c.store.insert (contextKey w)
          (((c.store.lookup (contextKey w)).getD { words := [], occurrences := 0 }).processCandidate
            (lastToken w)) := by
  have hlast : w.getLast? = some (lastToken w) := by
    unfold lastToken
    cases w with
    | nil => exact absurd rfl hne
    | cons a l => simp [List.getLast?_cons]
  unfold NGramChain.processNgram
  rw [if_neg (by simp [hlen]), hlast]
  unfold contextKey
  simp only []
  cases hlook : c.store.lookup (joinSpace (w.take (w.length - 1))) with
  | some cands => simp
  | none =>
    simp only []
    cases hd : (joinSpace (w.take (w.length - 1))).data with
    | nil => simp
    | cons ch rest =>
      simp only []
      by_cases hup : 'A' ≤ ch ∧ ch ≤ 'Z'
      · rw [if_pos hup]; simp
      · rw [if_neg hup]; simp

theorem lookup_processNgram (c : NGramChain) (w : List String) (hlen : w.length = c.n)
    (hn : 0 < c.n) (key : String) :
    (c.processNgram w).1.store.lookup key
      = if contextKey w = key then recorded (c.store.lookup key) [lastToken w]
        else c.store.lookup key := by
  have hne : w ≠ [] := by
    intro h; rw [h] at hlen; simp at hlen; omega
  rw [processNgram_store c w hlen hne]
  by_cases h : contextKey w = key
  · rw [if_pos h, ← h, AList.lookup_insert]
    rfl
  · rw [if_neg h, AList.lookup_insert_ne (fun hk => h hk.symm)]

theorem processEach_n (ws : List (List String)) :
    ∀ c : NGramChain, (processEach c ws).n = c.n := by
  induction ws with
  | nil => intro c; rfl
  | cons w ws ih =>
    intro c
    have := ih (c.processNgram w).1
    rw [processNgram_n] at this
    simpa [processEach] using this

theorem lookup_processEach (ws : List (List String)) :
    ∀ (c : NGramChain), 0 < c.n → (∀ w ∈ ws, w.length = c.n) →
      ∀ key, (processEach c ws).store.lookup key
        = recorded (c.store.lookup key) (lastsFor ws key) := by
  induction ws with
  | nil => intro c _ _ key; rfl
  | cons w ws ih =>
    intro c hn hlen key
    have hw := hlen w (by simp)
    have hn1 := processNgram_n c w
    have := ih (c.processNgram w).1 (by rw [hn1]; exact hn)
      (by intro w1 hw1; rw [hn1]; exact hlen w1 (by simp [hw1])) key
    rw [lookup_processNgram c w hw hn key] at this
    have hstep : processEach c (w :: ws) = processEach (c.processNgram w).1 ws := by
      simp [processEach]
    rw [hstep, this, lastsFor_cons]
    by_cases h : contextKey w = key
    · rw [if_pos h, if_pos h]; rfl
    · rw [if_neg h, if_neg h]

theorem processEach_arity_zero (ws : List (List String)) :
    ∀ (c : NGramChain), c.n = 0 → (∀ w ∈ ws, w.length = c.n) → processEach c ws = c := by
  induction ws with
  | nil => intro c _ _; rfl
  | cons w ws ih =>
    intro c hn hlen
    have hw : w = [] := by
      have := hlen w (by simp)
      rw [hn] at this
      exact List.length_eq_zero.1 this
    have hstep : (c.processNgram w).1 = c := by
      subst hw
      unfold NGramChain.processNgram
      simp [hn]
    have : processEach c (w :: ws) = processEach (c.processNgram w).1 ws := by
      simp [processEach]
    rw [this, hstep]
    exact ih c hn (fun w1 hw1 => hlen w1 (by simp [hw1]))

theorem processWindows_eq_processEach (ws : List (List String)) :
    ∀ (c : NGramChain), (processWindows c ws).2 = Outcome.ok →
      (processWindows c ws).1 = processEach c ws := by
  induction ws with
  | nil => intro c _; rfl
  | cons w ws ih =>
    intro c hok
    have hstep : processEach c (w :: ws) = processEach (c.processNgram w).1 ws := by
      simp [processEach]
    rw [hstep]
    rw [processWindows] at hok ⊢
    rcases hres : c.processNgram w with ⟨c1, o⟩
    rw [hres] at hok
    cases o with
    | ok => exact ih c1 hok
    | error m => simp at hok
    | panic => simp at hok

theorem recorded_occurrences (o : Option candidates) (l : List String) :
    occurrencesOf (recorded o l) = occurrencesOf o + l.length := by
  cases o with
  | some c => rw [recorded_some]; simp [occurrencesOf, processAll_occurrences]
  | none =>
    rw [recorded_none]
    by_cases h : l = []
    · simp [h, occurrencesOf]
    · rw [if_neg h]; simp [occurrencesOf, processAll_occurrences]

theorem recorded_frequency (o : Option candidates) (l : List String) (word : String) :
    frequencyIn (recorded o l) word = frequencyIn o word + l.count word := by
  cases o with
  | some c => rw [recorded_some]; simp [frequencyIn, processAll_frequencyOf]
  | none =>
    rw [recorded_none]
    by_cases h : l = []
    · simp [h, frequencyIn]
    · rw [if_neg h]
      simp only [frequencyIn]
      rw [processAll_frequencyOf]
      simp [candidates.frequencyOf, candidates.getCandidate]

theorem recorded_isSome (o : Option candidates) (l : List String) :
    (recorded o l).isSome = true ↔ (o.isSome = true ∨ l ≠ []) := by
  cases o with
  | some c => rw [recorded_some]; simp
  | none =>
    rw [recorded_none]
    by_cases h : l = []
    · simp [h]
    · rw [if_neg h]; simp [h]
theorem filter_processWords_other (w : String) (ws : List wordFrequency) :
    (processWords w ws).filter (fun e => e.word ≠ w) = ws.filter (fun e => e.word ≠ w) := by
  induction ws with
  | nil => simp [processWords]
  | cons e rest ih =>
    unfold processWords
    by_cases h : w = e.word
    · rw [if_pos h]
      simp [List.filter_cons, h]
    · rw [if_neg h]
      simp only [List.filter_cons, ih]

theorem processAll_replicate_other (w : String) (k : Nat) :
    ∀ c : candidates,
      (c.processAll (List.replicate k w)).words.filter (fun e => e.word ≠ w)
        = c.words.filter (fun e => e.word ≠ w) := by
  induction k with
  | zero => intro c; rfl
  | succ k ih =>
    intro c
    have := ih (c.processCandidate w)
    simp only [candidates.processAll, List.replicate_succ, List.foldl_cons] at this ⊢
    rw [this]
    exact filter_processWords_other w c.words

theorem recorded_replicate_other (o : Option candidates) (w : String) (k : Nat) :
    entriesOtherThan (recorded o (List.replicate k w)) w = entriesOtherThan o w := by
  cases o with
  | some c =>
    rw [recorded_some]
    exact processAll_replicate_other w k c
  | none =>
    rw [recorded_none]
    by_cases h : List.replicate k w = []
    · rw [if_pos h]
    · rw [if_neg h]
      exact processAll_replicate_other w k { words := [], occurrences := 0 }

theorem lastsFor_replicate (window : List String) (k : Nat) (key : String) :
    lastsFor (List.replicate k window) key
      = if contextKey window = key then List.replicate k (lastToken window) else [] := by
  induction k with
  | zero => simp [lastsFor]
  | succ k ih =>
    rw [List.replicate_succ, lastsFor_cons, ih]
    by_cases h : contextKey window = key
    · simp [h, List.replicate_succ]
    · simp [h]

/-- C16: for a window of exactly `n` tokens with a non-empty context key
and candidate `w`, processing that same window `k` times ends normally
every time and, in the set stored under that key, increases the frequency
of `w` (0 when the key or the word was absent) and the occurrences (0 when
the key was absent) by exactly `k`, leaves the entries of the other words
as they were, and leaves the set of every other context as it was. -/
theorem C16_same_window_k_times (c : NGramChain) (window : List String) (k : Nat)
    (hlen : window.length = c.n) (hkey : contextKey window ≠ "") :
    (processWindows c (List.replicate k window)).2 = Outcome.ok ∧
    frequencyIn ((processWindows c (List.replicate k window)).1.store.lookup (contextKey window))
        (lastToken window)
      = frequencyIn (c.store.lookup (contextKey window)) (lastToken window) + k ∧
    occurrencesOf ((processWindows c (List.replicate k window)).1.store.lookup (contextKey window))
      = occurrencesOf (c.store.lookup (contextKey window)) + k ∧
    entriesOtherThan
        ((processWindows c (List.replicate k window)).1.store.lookup (contextKey window))
        (lastToken window)
      = entriesOtherThan (c.store.lookup (contextKey window)) (lastToken window) ∧
    (∀ key, key ≠ contextKey window →
      (processWindows c (List.replicate k window)).1.store.lookup key = c.store.lookup key) := by
  obtain ⟨hok, hlk⟩ := processWindows_good (List.replicate k window) c (by
    intro w hw
    rw [List.eq_of_mem_replicate hw]
    exact ⟨hlen, hkey⟩)
  refine ⟨hok, ?_, ?_, ?_, ?_⟩
  · rw [hlk, lastsFor_replicate, if_pos rfl, recorded_frequency]
    simp
  · rw [hlk, lastsFor_replicate, if_pos rfl, recorded_occurrences]
    simp
  · rw [hlk, lastsFor_replicate, if_pos rfl, recorded_replicate_other]
  · intro key hne
    rw [hlk, lastsFor_replicate, if_neg (fun h => hne h.symm)]
    rfl

theorem C16_same_window_k_times_witness :
    (["I", "am", "batman"].length = getValidChain.n ∧ contextKey ["I", "am", "batman"] ≠ "") ∧
    (processWindows getValidChain (List.replicate 3 ["I", "am", "batman"])).1.store.lookup "I am"
      = some ⟨[⟨"batman", 7⟩], 7⟩ ∧
    (processWindows getValidChain (List.replicate 3 ["I", "am", "batman"])).2 = Outcome.ok :=
  ⟨⟨by decide, by decide⟩, by decide,
    (C16_same_window_k_times getValidChain ["I", "am", "batman"] 3 (by decide) (by decide)).1⟩

theorem lastsFor_perm (ws1 ws2 : List (List String)) (key : String) (h : ws1.Perm ws2) :
    (lastsFor ws1 key).Perm (lastsFor ws2 key) := by
  unfold lastsFor
  exact (h.filter _).map _

theorem lookup_processEach_perm (c : NGramChain) (ws1 ws2 : List (List String))
    (hperm : ws1.Perm ws2) (hlen : ∀ w ∈ ws1, w.length = c.n) (key : String) :
    ((processEach c ws1).store.lookup key).isSome
        = ((processEach c ws2).store.lookup key).isSome ∧
    occurrencesOf ((processEach c ws1).store.lookup key)
      = occurrencesOf ((processEach c ws2).store.lookup key) ∧
    ∀ word, frequencyIn ((processEach c ws1).store.lookup key) word
      = frequencyIn ((processEach c ws2).store.lookup key) word := by
  have hlen2 : ∀ w ∈ ws2, w.length = c.n := fun w hw => hlen w (hperm.mem_iff.2 hw)
  by_cases hn : c.n = 0
  · rw [processEach_arity_zero ws1 c hn hlen, processEach_arity_zero ws2 c hn hlen2]
    exact ⟨rfl, rfl, fun _ => rfl⟩
  · have hn1 : 0 < c.n := by omega
    have hp := lastsFor_perm ws1 ws2 key hperm
    rw [lookup_processEach ws1 c hn1 hlen key, lookup_processEach ws2 c hn1 hlen2 key]
    refine ⟨?_, ?_, ?_⟩
    · rw [Bool.eq_iff_iff, recorded_isSome, recorded_isSome]
      have : lastsFor ws1 key = [] ↔ lastsFor ws2 key = [] := by
        constructor
        · intro h; rw [h] at hp; exact hp.nil_eq.symm
        · intro h; rw [h] at hp; exact hp.eq_nil
      simp only [ne_eq, this]
    · rw [recorded_occurrences, recorded_occurrences, hp.length_eq]
    · intro word
      rw [recorded_frequency, recorded_frequency, hp.count_eq]

/-- C17: training is order-independent on aggregate frequencies.  For two
lists of length-`n` windows that are permutations of each other,
processing either list from the same chain yields the same set of table
keys, the same occurrences for each context and the same frequency for
each (context, word) pair (and with non-empty context keys every call ends
normally); and for two windows with different contexts, processing them in
either order yields the same table (the same stored set under every
key). -/
theorem C17_training_order_independent (c : NGramChain) :
    (∀ ws1 ws2 : List (List String), ws1.Perm ws2 → (∀ w ∈ ws1, w.length = c.n) →
      (∀ key, key ∈ (processEach c ws1).store ↔ key ∈ (processEach c ws2).store) ∧
      (∀ key, occurrencesOf ((processEach c ws1).store.lookup key)
        = occurrencesOf ((processEach c ws2).store.lookup key)) ∧
      (∀ key word, frequencyIn ((processEach c ws1).store.lookup key) word
        = frequencyIn ((processEach c ws2).store.lookup key) word) ∧
      ((∀ w ∈ ws1, contextKey w ≠ "") →
        processWindows c ws1 = (processEach c ws1, Outcome.ok) ∧
        processWindows c ws2 = (processEach c ws2, Outcome.ok))) ∧
    (∀ w1 w2 : List String, w1.length = c.n → w2.length = c.n →
      contextKey w1 ≠ contextKey w2 →
      ∀ key, (processEach c [w1, w2]).store.lookup key
        = (processEach c [w2, w1]).store.lookup key) := by
  constructor
  · intro ws1 ws2 hperm hlen
    refine ⟨?_, ?_, ?_, ?_⟩
    · intro key
      rw [← AList.lookup_isSome, ← AList.lookup_isSome,
        (lookup_processEach_perm c ws1 ws2 hperm hlen key).1]
    · intro key
      exact (lookup_processEach_perm c ws1 ws2 hperm hlen key).2.1
    · intro key word
      exact (lookup_processEach_perm c ws1 ws2 hperm hlen key).2.2 word
    · intro hkeys
      have h1 := (processWindows_good ws1 c (fun w hw => ⟨hlen w hw, hkeys w hw⟩)).1
      have h2 := (processWindows_good ws2 c (fun w hw =>
        ⟨hlen w (hperm.mem_iff.2 hw), hkeys w (hperm.mem_iff.2 hw)⟩)).1
      constructor
      · exact Prod.ext (processWindows_eq_processEach ws1 c h1) h1
      · exact Prod.ext (processWindows_eq_processEach ws2 c h2) h2
  · intro w1 w2 hl1 hl2 hctx key
    have hn : 0 < c.n := by
      rcases Nat.eq_zero_or_pos c.n with h | h
      · exfalso
        apply hctx
        rw [h] at hl1 hl2
        rw [List.length_eq_zero.1 hl1, List.length_eq_zero.1 hl2]
      · exact h
    rw [lookup_processEach [w1, w2] c hn (by
        intro w hw
        simp only [List.mem_cons, List.mem_singleton, List.not_mem_nil, or_false] at hw
        rcases hw with h | h <;> rw [h] <;> assumption) key,
      lookup_processEach [w2, w1] c hn (by
        intro w hw
        simp only [List.mem_cons, List.mem_singleton, List.not_mem_nil, or_false] at hw
        rcases hw with h | h <;> rw [h] <;> assumption) key]
    congr 1
    simp only [lastsFor_cons]
    by_cases h1 : contextKey w1 = key
    · have h2 : ¬ contextKey w2 = key := fun h => hctx (h1.trans h.symm)
      simp [h1, h2]
    · by_cases h2 : contextKey w2 = key
      · simp [h1, h2]
      · simp [h1, h2]

theorem C17_training_order_independent_witness :
    (∀ key, key ∈ (processEach getValidChain
          [["I", "am", "groot"], ["It's", "a", "trap"], ["I", "am", "batman"]]).store
        ↔ key ∈ (processEach getValidChain
          [["I", "am", "batman"], ["I", "am", "groot"], ["It's", "a", "trap"]]).store) ∧
    (∀ key, (processEach getValidChain [["I", "am", "groot"], ["It's", "a", "trap"]]).store.lookup
        key
      = (processEach getValidChain [["It's", "a", "trap"], ["I", "am", "groot"]]).store.lookup
        key) :=
  ⟨((C17_training_order_independent getValidChain).1
      [["I", "am", "groot"], ["It's", "a", "trap"], ["I", "am", "batman"]]
      [["I", "am", "batman"], ["I", "am", "groot"], ["It's", "a", "trap"]]
      (by decide) (by decide)).1,
    (C17_training_order_independent getValidChain).2 ["I", "am", "groot"] ["It's", "a", "trap"]
      (by decide) (by decide) (by decide)⟩

/-! ## Theorems: context keys -/

theorem intercalate_go_data (s : String) (l : List String) :
    ∀ acc : String, (String.intercalate.go acc s l).data
      = acc.data ++ (l.map (fun a => s.data ++ a.data)).flatten := by
  induction l with
  | nil => intro acc; simp [String.intercalate.go]
  | cons a l ih =>
    intro acc
    rw [String.intercalate.go, ih]
    simp [String.data_append, List.append_assoc]

theorem joinSpace_singleton_data (a : String) : (joinSpace [a]).data = a.data := by
  unfold joinSpace
  rw [String.intercalate, intercalate_go_data]
  simp

theorem joinSpace_cons_cons_data (a b : String) (l : List String) :
    (joinSpace (a :: b :: l)).data = a.data ++ ' ' :: (joinSpace (b :: l)).data := by
  unfold joinSpace
  rw [String.intercalate, String.intercalate, intercalate_go_data, intercalate_go_data]
  simp only [List.map_cons, List.flatten_cons, List.append_assoc]
  rfl

theorem splitSpaceChars_spaceFree (a : List Char) (ha : ' ' ∉ a) :
    splitSpaceChars a = [a] := by
  induction a with
  | nil => rfl
  | cons ch rest ih =>
    have hch : ch ≠ ' ' := fun h => ha (by simp [h])
    have hrest : ' ' ∉ rest := fun h => ha (by simp [h])
    rw [splitSpaceChars, if_neg hch, ih hrest]

theorem splitSpaceChars_append_space (a r : List Char) (ha : ' ' ∉ a) :
    splitSpaceChars (a ++ ' ' :: r) = a :: splitSpaceChars r := by
  induction a with
  | nil => simp [splitSpaceChars]
  | cons ch rest ih =>
    have hch : ch ≠ ' ' := fun h => ha (by simp [h])
    have hrest : ' ' ∉ rest := fun h => ha (by simp [h])
    rw [List.cons_append, splitSpaceChars, if_neg hch, ih hrest]

theorem splitSpace_joinSpace (l : List String) :
    ∀ a : String, (∀ s ∈ a :: l, spaceFree s) → splitSpace (joinSpace (a :: l)) = a :: l := by
  induction l with
  | nil =>
    intro a h
    unfold splitSpace
    rw [joinSpace_singleton_data, splitSpaceChars_spaceFree a.data (h a (by simp))]
    rfl
  | cons b l ih =>
    intro a h
    have hb := ih b (fun s hs => h s (by simp only [List.mem_cons] at hs ⊢; exact Or.inr hs))
    unfold splitSpace at hb ⊢
    rw [joinSpace_cons_cons_data, splitSpaceChars_append_space a.data _ (h a (by simp)),
      List.map_cons, hb]

/-- C18: context keys never collide.  For `n ≥ 2` and two sequences of
`n - 1` tokens in which no token contains a space character, if joining
each sequence with a single space (as `processNgram` does to build the key)
gives the same string, the two sequences are equal. -/
theorem C18_context_keys_never_collide (n : Nat) (ts1 ts2 : List String) (hn : 2 ≤ n)
    (hlen1 : ts1.length = n - 1) (hlen2 : ts2.length = n - 1)
    (hfree1 : ∀ s ∈ ts1, spaceFree s) (hfree2 : ∀ s ∈ ts2, spaceFree s)
    (hkey : joinSpace ts1 = joinSpace ts2) : ts1 = ts2 := by
  obtain ⟨a1, l1, rfl⟩ : ∃ a l, ts1 = a :: l := by
    cases ts1 with
    | nil => simp at hlen1; omega
    | cons a l => exact ⟨a, l, rfl⟩
  obtain ⟨a2, l2, rfl⟩ : ∃ a l, ts2 = a :: l := by
    cases ts2 with
    | nil => simp at hlen2; omega
    | cons a l => exact ⟨a, l, rfl⟩
  rw [← splitSpace_joinSpace l1 a1 hfree1, ← splitSpace_joinSpace l2 a2 hfree2, hkey]

theorem C18_context_keys_never_collide_witness :
    (2 ≤ 3 ∧ ["a", "bc"].length = 3 - 1 ∧ (∀ s ∈ ["a", "bc"], spaceFree s) ∧
      joinSpace ["a", "bc"] = joinSpace ["a", "bc"]) ∧
    joinSpace ["a", "bc"] ≠ joinSpace ["ab", "c"] ∧
    ["a", "bc"] = ["a", "bc"] :=
  ⟨⟨by decide, by decide, by decide, rfl⟩, by decide,
    C18_context_keys_never_collide 3 ["a", "bc"] ["a", "bc"] (by decide) (by decide)
      (by decide) (by decide) (by decide) rfl⟩

/-! ## Theorems: probability of a candidate -/

theorem frequency_le_sumFrequencies (ws : List wordFrequency)
    (hnonneg : ∀ x ∈ ws, 0 ≤ x.frequency) (e : wordFrequency) (he : e ∈ ws) :
    e.frequency ≤ sumFrequencies ws := by
  induction ws with
  | nil => simp at he
  | cons a rest ih =>
    rw [sumFrequencies_cons]
    have hrest : 0 ≤ sumFrequencies rest := by
      unfold sumFrequencies
      apply List.sum_nonneg
      intro x hx
      simp only [List.mem_map] at hx
      obtain ⟨y, hy, rfl⟩ := hx
      exact hnonneg y (by simp [hy])
    rcases List.mem_cons.1 he with h | h
    · rw [h]; omega
    · have := ih (fun x hx => hnonneg x (by simp [hx])) h
      have := hnonneg a (by simp)
      omega

/-- C11 (as stated) fails: in `zeroFrequencyChain` every candidate set has
occurrences equal to the sum of its (non-negative) frequencies, the context
and the word are present, and `CandidateProbability` returns the quotient
of 0 by 0, which is no ratio in `[0, 1]`. -/
theorem C11_zero_occurrences_counterexample :
    ¬ (∀ (c : NGramChain) (pfx word : String) (cands : candidates) (e : wordFrequency),
        (∀ key s, c.store.lookup key = some s → s.occurrences = sumFrequencies s.words) →
        (∀ key s, c.store.lookup key = some s → ∀ x ∈ s.words, 0 ≤ x.frequency) →
        c.store.lookup pfx = some cands → cands.getCandidate word = some e →
        ∃ p q, c.CandidateProbability pfx word = Except.ok p ∧ p.value = some q ∧
          0 ≤ q ∧ q ≤ 1) := by
  intro h
  have hall : ∀ key s, zeroFrequencyChain.store.lookup key = some s →
      s = { words := [⟨"batman", 0⟩], occurrences := 0 } := by
    intro key s hs
    by_cases hk : key = "I am"
    · subst hk
      have : zeroFrequencyChain.store.lookup "I am"
          = some { words := [⟨"batman", 0⟩], occurrences := 0 } := by decide
      rw [this] at hs
      injection hs with hs
      exact hs.symm
    · have : zeroFrequencyChain.store.lookup key = none := by
        rw [AList.lookup_eq_none]
        simp [zeroFrequencyChain, AList.mem_keys, AList.keys_singleton, hk]
      rw [this] at hs
      exact absurd hs (by simp)
  obtain ⟨p, q, hp, hq, _, _⟩ := h zeroFrequencyChain "I am" "batman"
    { words := [⟨"batman", 0⟩], occurrences := 0 } ⟨"batman", 0⟩
    (by intro key s hs; rw [hall key s hs]; decide)
    (by intro key s hs; rw [hall key s hs]; decide)
    (by decide) (by decide)
  have hcp : zeroFrequencyChain.CandidateProbability "I am" "batman"
      = Except.ok (Probability.quotient 0 0) := rfl
  rw [hcp] at hp
  injection hp with hp
  rw [← hp] at hq
  simp [Probability.value] at hq

/-- C11 (amended): for a context present in the table whose candidate set
has occurrences `t ≠ 0` equal to the sum of its non-negative frequencies,
and a word present in that set with frequency `f`, `CandidateProbability`
returns the quotient of `f` by `t` with no error, and the ratio `f / t`
lies in `[0, 1]`. -/
theorem C11_probability_is_ratio (c : NGramChain) (pfx word : String) (cands : candidates)
    (e : wordFrequency)
    (halign : cands.occurrences = sumFrequencies cands.words)
    (hnonneg : ∀ x ∈ cands.words, 0 ≤ x.frequency)
    (hctx : c.store.lookup pfx = some cands) (hword : cands.getCandidate word = some e)
    (hocc : cands.occurrences ≠ 0) :
    c.CandidateProbability pfx word
      = Except.ok (Probability.quotient e.frequency cands.occurrences) ∧
    (Probability.quotient e.frequency cands.occurrences).value
      = some ((e.frequency : ℚ) / (cands.occurrences : ℚ)) ∧
    0 ≤ (e.frequency : ℚ) / (cands.occurrences : ℚ) ∧
    (e.frequency : ℚ) / (cands.occurrences : ℚ) ≤ 1 := by
  have hmem : e ∈ cands.words := by
    unfold candidates.getCandidate at hword
    exact List.mem_of_find?_eq_some hword
  have hf0 : 0 ≤ e.frequency := hnonneg e hmem
  have hft : e.frequency ≤ cands.occurrences := by
    rw [halign]; exact frequency_le_sumFrequencies cands.words hnonneg e hmem
  have htpos : 0 < cands.occurrences := by omega
  have hf0q : (0 : ℚ) ≤ (e.frequency : ℚ) := by exact_mod_cast hf0
  have hftq : (e.frequency : ℚ) ≤ (cands.occurrences : ℚ) := by exact_mod_cast hft
  have htq : (0 : ℚ) < (cands.occurrences : ℚ) := by exact_mod_cast htpos
  refine ⟨?_, ?_, ?_, ?_⟩
  · simp [NGramChain.CandidateProbability, hctx, hword]
  · simp [Probability.value, hocc]
  · exact div_nonneg hf0q (le_of_lt htq)
  · rw [div_le_one htq]; exact hftq

theorem C11_probability_is_ratio_witness :
    batmanGrootChain.store.lookup "I am" = some ⟨[⟨"batman", 4⟩, ⟨"groot", 1⟩], 5⟩ ∧
    batmanGrootChain.CandidateProbability "I am" "batman"
      = Except.ok (Probability.quotient 4 5) ∧
    (Probability.quotient 4 5).value = some (((4 : Int) : ℚ) / ((5 : Int) : ℚ)) ∧
    0 ≤ ((4 : Int) : ℚ) / ((5 : Int) : ℚ) ∧ ((4 : Int) : ℚ) / ((5 : Int) : ℚ) ≤ 1 :=
  ⟨by decide,
    C11_probability_is_ratio batmanGrootChain "I am" "batman"
      ⟨[⟨"batman", 4⟩, ⟨"groot", 1⟩], 5⟩ ⟨"batman", 4⟩ (by decide) (by decide) (by decide)
      (by decide) (by decide)⟩

/-! ## Theorems: serial orders of the concurrency test -/

theorem lastsFor_append (ws1 ws2 : List (List String)) (key : String) :
    lastsFor (ws1 ++ ws2) key = lastsFor ws1 key ++ lastsFor ws2 key := by
  simp [lastsFor, List.filter_append]

theorem lastsFor_concurrencyTestCalls (key : String) :
    lastsFor concurrencyTestCalls key
      = if key = "a a" then
          List.replicate 25 "b" ++ List.replicate 25 "c" ++ List.replicate 25 "d"
        else [] := by
  have hb : contextKey ["a", "a", "b"] = "a a" := by decide
  have hc : contextKey ["a", "a", "c"] = "a a" := by decide
  have hd : contextKey ["a", "a", "d"] = "a a" := by decide
  have lb : lastToken ["a", "a", "b"] = "b" := by decide
  have lc : lastToken ["a", "a", "c"] = "c" := by decide
  have ld : lastToken ["a", "a", "d"] = "d" := by decide
  unfold concurrencyTestCalls
  rw [lastsFor_append, lastsFor_append, lastsFor_replicate, lastsFor_replicate,
    lastsFor_replicate, hb, hc, hd, lb, lc, ld]
  by_cases h : key = "a a"
  · subst h
    simp only [if_true]
  · have h1 : ¬ "a a" = key := fun h1 => h h1.symm
    simp only [h, h1, if_false, List.append_nil]

/-- The sequential content of the concurrency test: whatever serial order
the 75 calls of `processNgram` take on a new trigram chain, the table ends
with the single key `a a`, occurrences 75 and frequency 25 for each of
`b`, `c` and `d`. -/
theorem serial_order_no_lost_update (intn : Nat → Int → Int) (ws : List (List String))
    (hperm : ws.Perm concurrencyTestCalls) :
    (∀ key, key ∈ (processEach { store := ∅, n := 3, seeds := [], randFunc := intn }
        ws).store ↔ key = "a a") ∧
    occurrencesOf ((processEach { store := ∅, n := 3, seeds := [], randFunc := intn }
      ws).store.lookup "a a") = 75 ∧
    (∀ word, word = "b" ∨ word = "c" ∨ word = "d" →
      frequencyIn ((processEach { store := ∅, n := 3, seeds := [], randFunc := intn }
        ws).store.lookup "a a") word = 25) := by
  have hlenC : ∀ w ∈ concurrencyTestCalls, w.length = 3 := by
    intro w hw
    simp only [concurrencyTestCalls, List.mem_append, List.mem_replicate] at hw
    rcases hw with (⟨_, h⟩ | ⟨_, h⟩) | ⟨_, h⟩ <;> rw [h] <;> rfl
  have hlen : ∀ w ∈ ws, w.length
      = ({ store := ∅, n := 3, seeds := [], randFunc := intn } : NGramChain).n :=
    fun w hw => hlenC w (hperm.mem_iff.1 hw)
  have hP := lookup_processEach_perm { store := ∅, n := 3, seeds := [], randFunc := intn }
    ws concurrencyTestCalls hperm hlen
  have hC : ∀ key, (processEach { store := ∅, n := 3, seeds := [], randFunc := intn }
      concurrencyTestCalls).store.lookup key
      = recorded none (lastsFor concurrencyTestCalls key) := by
    intro key
    rw [lookup_processEach concurrencyTestCalls _ (by show 0 < 3; omega) hlenC key]
    rfl
  refine ⟨?_, ?_, ?_⟩
  · intro key
    rw [← AList.lookup_isSome, (hP key).1, hC key, recorded_isSome,
      lastsFor_concurrencyTestCalls]
    by_cases h : key = "a a"
    · simp [h]
    · simp [h]
  · rw [(hP "a a").2.1, hC, recorded_occurrences, lastsFor_concurrencyTestCalls]
    simp [occurrencesOf]
  · intro word hword
    rw [(hP "a a").2.2 word, hC, recorded_frequency, lastsFor_concurrencyTestCalls]
    have hbc : ("b" == "c") = false := by decide
    have hbd : ("b" == "d") = false := by decide
    have hcb : ("c" == "b") = false := by decide
    have hcd : ("c" == "d") = false := by decide
    have hdb : ("d" == "b") = false := by decide
    have hdc : ("d" == "c") = false := by decide
    rw [if_pos rfl, List.count_append, List.count_append, List.count_replicate,
      List.count_replicate, List.count_replicate]
    rcases hword with h | h | h <;> subst h
    · simp only [beq_self_eq_true, hcb, hdb, if_true, frequencyIn]
      rfl
    · simp only [beq_self_eq_true, hbc, hdc, if_true, frequencyIn]
      rfl
    · simp only [beq_self_eq_true, hbd, hcd, if_true, frequencyIn]
      rfl

theorem serial_order_no_lost_update_witness :
    concurrencyTestCalls.reverse.Perm concurrencyTestCalls ∧
    occurrencesOf ((processEach { store := ∅, n := 3, seeds := [], randFunc := fun _ _ => 0 }
      concurrencyTestCalls.reverse).store.lookup "a a") = 75 :=
  ⟨List.reverse_perm _,
    (serial_order_no_lost_update (fun _ _ => 0) concurrencyTestCalls.reverse
      (List.reverse_perm _)).2.1⟩

/-! ## Theorems: the starting context -/

theorem rangeWalk_mem (iter : List String) :
    ∀ pos : Int, 0 ≤ pos → pos < iter.length → rangeWalk pos iter ∈ iter := by
  induction iter with
  | nil => intro pos h0 h1; simp at h1; omega
  | cons k rest ih =>
    intro pos h0 h1
    unfold rangeWalk
    by_cases hp : pos = 0
    · rw [if_pos hp]; simp
    · rw [if_neg hp]
      have := ih (pos - 1) (by omega) (by simp at h1; omega)
      simp [this]

theorem generateLoop_prefix (c : NGramChain) :
    ∀ (m call : Nat) (ngram text : String),
      text.data <+: (generateLoop c m call ngram text).data := by
  intro m
  induction m with
  | zero => intro call ngram text; exact List.prefix_refl _
  | succ m ih =>
    intro call ngram text
    unfold generateLoop
    cases c.store.lookup ngram with
    | none => exact List.prefix_refl _
    | some cands =>
      simp only []
      refine List.IsPrefix.trans ?_ (ih _ _ _)
      simp only [String.data_append, List.append_assoc]
      exact List.prefix_append _ _

theorem GenerateRandomText_eq_map (c : NGramChain) (iter : List String) (maxWords : Nat)
    (hstore : c.store.keys ≠ []) :
    c.GenerateRandomText iter maxWords
      = (c.generateBody iter maxWords).map
          (fun text => if hasSuffix text "." then text else text ++ ".") := by
  unfold NGramChain.GenerateRandomText NGramChain.storeLen
  rw [if_neg (by simpa using hstore)]
  cases c.generateBody iter maxWords with
  | none => rfl
  | some text => by_cases h : hasSuffix text "." = true <;> simp [h]

/-- C21: for a chain with a non-empty table and a random function with
values in `[0, bound)`: `getRandomNGram` returns a starting context; it is
`seeds[randFunc(len(seeds))]` when `seeds` is non-empty, and otherwise
(the `range` over the table yielding each key once, in any order) a key of
the table; and the output of `GenerateRandomText` begins with that
starting context. -/
theorem C21_starting_context (c : NGramChain) (iter : List String) (maxWords : Nat)
    (hstore : c.store.keys ≠ []) (hrand : c.RandInRange) :
    (∃ start, c.getRandomNGram iter = some start) ∧
    (c.seeds ≠ [] →
      0 ≤ c.randFunc 0 c.seeds.length ∧ (c.randFunc 0 c.seeds.length).toNat < c.seeds.length ∧
      c.getRandomNGram iter = c.seeds[(c.randFunc 0 c.seeds.length).toNat]?) ∧
    (c.seeds = [] → iter.Perm c.store.keys →
      ∃ key, c.getRandomNGram iter = some key ∧ key ∈ c.store) ∧
    (∀ start, c.getRandomNGram iter = some start →
      ∃ text, c.GenerateRandomText iter maxWords = some text ∧ start.data <+: text.data) := by
  refine ⟨getRandomNGram_isSome c iter hrand, ?_, ?_, ?_⟩
  · intro hs
    have hpos : c.seeds.length > 0 := List.length_pos.2 hs
    have hr := hrand 0 c.seeds.length (by exact_mod_cast hpos)
    refine ⟨hr.1, by omega, ?_⟩
    unfold NGramChain.getRandomNGram
    rw [if_pos hpos]
    simp only []
    rw [if_pos hr]
  · intro hs hiter
    have hlen : iter.length = c.storeLen := by
      unfold NGramChain.storeLen
      exact hiter.length_eq
    have hpos : 0 < c.storeLen := by
      unfold NGramChain.storeLen
      exact List.length_pos.2 hstore
    have hr := hrand 0 c.storeLen (by exact_mod_cast hpos)
    refine ⟨rangeWalk (c.randFunc 0 c.storeLen) iter, ?_, ?_⟩
    · unfold NGramChain.getRandomNGram
      rw [if_neg (by simp [hs])]
    · rw [AList.mem_keys]
      exact hiter.mem_iff.1 (rangeWalk_mem iter _ hr.1 (by rw [hlen]; exact hr.2))
  · intro start hstart
    rw [GenerateRandomText_eq_map c iter maxWords hstore]
    simp only [NGramChain.generateBody, hstart, Option.map_some']
    have hp := generateLoop_prefix c maxWords 1 start start
    by_cases h : hasSuffix (generateLoop c maxWords 1 start start) "." = true
    · rw [if_pos h]
      exact ⟨_, rfl, hp⟩
    · rw [if_neg h]
      refine ⟨_, rfl, hp.trans ?_⟩
      simp only [String.data_append]
      exact List.prefix_append _ _

theorem C21_starting_context_witness :
    (getValidChain.store.keys ≠ [] ∧ getValidChain.RandInRange) ∧
    getValidChain.getRandomNGram [] = some "I am" ∧
    (∃ text, getValidChain.GenerateRandomText [] 100 = some text ∧ "I am".data <+: text.data) :=
  ⟨⟨by decide, fun _ _ h => ⟨le_refl 0, h⟩⟩, by decide,
    (C21_starting_context getValidChain [] 100 (by decide)
      (fun _ _ h => ⟨le_refl 0, h⟩)).2.2.2 "I am" (by decide)⟩

/-! ## Theorems: the well-formedness invariant -/

theorem mem_processWords (x : String) (ws : List wordFrequency) (e : wordFrequency)
    (he : e ∈ processWords x ws) :
    e ∈ ws ∨ (e.word = x ∧ (e.frequency = 1 ∨ ∃ e0 ∈ ws, e.frequency = e0.frequency + 1)) := by
  induction ws with
  | nil =>
    simp only [processWords, List.mem_singleton] at he
    right
    rw [he]
    exact ⟨rfl, Or.inl rfl⟩
  | cons a rest ih =>
    unfold processWords at he
    by_cases hx : x = a.word
    · rw [if_pos hx] at he
      rcases List.mem_cons.1 he with h | h
      · right
        rw [h]
        exact ⟨hx.symm, Or.inr ⟨a, by simp, rfl⟩⟩
      · left; simp [h]
    · rw [if_neg hx] at he
      rcases List.mem_cons.1 he with h | h
      · left; simp [h]
      · rcases ih h with h1 | ⟨h1, h2⟩
        · left; simp [h1]
        · right
          refine ⟨h1, ?_⟩
          rcases h2 with h2 | ⟨e0, he0, h2⟩
          · exact Or.inl h2
          · exact Or.inr ⟨e0, by simp [he0], h2⟩

theorem processWords_ne_nil (x : String) (ws : List wordFrequency) :
    processWords x ws ≠ [] := by
  cases ws with
  | nil => simp [processWords]
  | cons a rest =>
    unfold processWords
    split <;> simp

theorem sound_processCandidate (P : String → Prop) (cands : candidates) (x : String)
    (hx : P x) (h : cands.Sound P ∨ cands = { words := [], occurrences := 0 }) :
    (cands.processCandidate x).Sound P := by
  have hfreq : ∀ e ∈ cands.words, 1 ≤ e.frequency ∧ P e.word := by
    rcases h with h | h
    · exact h.2.1
    · rw [h]; intro e he; simp at he
  have hocc : 0 ≤ cands.occurrences := by
    rcases h with h | h
    · have := h.2.2.1; omega
    · rw [h]
  have hal : cands.Aligned := by
    rcases h with h | h
    · exact h.2.2.2
    · rw [h]; rfl
  refine ⟨processWords_ne_nil x cands.words, ?_, ?_, aligned_processCandidate cands x hal⟩
  · intro e he
    rcases mem_processWords x cands.words e he with h1 | ⟨h1, h2⟩
    · exact hfreq e h1
    · refine ⟨?_, by rw [h1]; exact hx⟩
      rcases h2 with h2 | ⟨e0, he0, h2⟩
      · omega
      · have := (hfreq e0 he0).1; omega
  · show 1 ≤ cands.occurrences + 1
    omega

theorem processNgram_seeds (c : NGramChain) (w : List String) :
    (c.processNgram w).1.seeds = c.seeds ∨
    (contextKey w ∉ c.store ∧ (c.processNgram w).1.seeds = c.seeds ++ [contextKey w]) := by
  unfold NGramChain.processNgram
  split
  · left; rfl
  · split
    · left; rfl
    · simp only []
      cases hlook : c.store.lookup (joinSpace (w.take (w.length - 1))) with
      | some cands => left; rfl
      | none =>
        have hmem : contextKey w ∉ c.store := by
          rw [← AList.lookup_eq_none]; exact hlook
        simp only []
        split
        · left; rfl
        · split
          · right; exact ⟨hmem, rfl⟩
          · left; rfl

theorem processNgram_wrong_length (c : NGramChain) (w : List String) (h : w.length ≠ c.n) :
    (c.processNgram w).1 = c := by
  unfold NGramChain.processNgram
  rw [if_pos h]

theorem joinSpace_take_ne (P : String → Prop) (hP : ∀ s, P s → s ≠ "") (w : List String)
    (n : Nat) (hn : 2 ≤ n) (hlen : w.length = n) (hw : ∀ tok ∈ w, P tok) :
    contextKey w ≠ "" := by
  unfold contextKey
  cases w with
  | nil => simp at hlen; omega
  | cons a rest =>
    obtain ⟨m, rfl⟩ : ∃ m, n = m + 2 := ⟨n - 2, by omega⟩
    simp only [List.length_cons] at hlen ⊢
    have : rest.length + 1 - 1 = m + 1 := by omega
    rw [this, List.take_succ_cons]
    exact joinSpace_ne a _ (hP a (hw a (by simp)))

theorem invariant_processNgram (P : String → Prop) (hP : ∀ s, P s → s ≠ "")
    (c : NGramChain) (w : List String) (hinv : c.Invariant P) (hw : ∀ tok ∈ w, P tok) :
    (c.processNgram w).1.Invariant P := by
  by_cases hlen : w.length = c.n
  · obtain ⟨hn, hstore, hseeds, hnodup⟩ := hinv
    have hkey : contextKey w ≠ "" := joinSpace_take_ne P hP w c.n hn hlen hw
    have hne : w ≠ [] := by
      intro h; rw [h] at hlen; simp at hlen; omega
    have hst := processNgram_store c w hlen hne
    have hlastP : P (lastToken w) := by
      apply hw
      unfold lastToken
      cases w with
      | nil => exact absurd rfl hne
      | cons a l =>
        rw [List.getLastD_eq_getLast?, List.getLast?_eq_getLast _ (by simp)]
        exact List.getLast_mem _
    refine ⟨by rw [processNgram_n]; exact hn, ?_, ?_, ?_⟩
    · intro key cands hlook
      rw [hst] at hlook
      rw [processNgram_n]
      by_cases hk : key = contextKey w
      · subst hk
        rw [AList.lookup_insert] at hlook
        injection hlook with hlook
        subst hlook
        refine ⟨⟨w.take (w.length - 1), ?_, ?_, rfl⟩, ?_⟩
        · rw [List.length_take]; omega
        · intro s hs; exact hw s (List.mem_of_mem_take hs)
        · apply sound_processCandidate P _ _ hlastP
          cases hold : c.store.lookup (contextKey w) with
          | none => right; rfl
          | some old => left; exact (hstore _ old hold).2
      · rw [AList.lookup_insert_ne hk] at hlook
        exact hstore key cands hlook
    · intro s hs
      rw [hst, AList.mem_insert]
      rcases processNgram_seeds c w with h | ⟨_, h⟩
      · rw [h] at hs; exact Or.inr (hseeds s hs)
      · rw [h, List.mem_append, List.mem_singleton] at hs
        rcases hs with hs | hs
        · exact Or.inr (hseeds s hs)
        · exact Or.inl hs
    · rcases processNgram_seeds c w with h | ⟨hnew, h⟩
      · rw [h]; exact hnodup
      · rw [h, List.nodup_append]
        refine ⟨hnodup, by simp, ?_⟩
        intro a ha hb
        simp only [List.mem_singleton] at hb
        subst hb
        exact hnew (hseeds _ ha)
  · rw [processNgram_wrong_length c w hlen]
    exact hinv
theorem invariant_processWindows (P : String → Prop) (hP : ∀ s, P s → s ≠ "")
    (ws : List (List String)) :
    ∀ c : NGramChain, c.Invariant P → (∀ w ∈ ws, ∀ tok ∈ w, P tok) →
      (processWindows c ws).1.Invariant P := by
  induction ws with
  | nil => intro c h _; exact h
  | cons w ws ih =>
    intro c hinv hws
    have hstep := invariant_processNgram P hP c w hinv (hws w (by simp))
    rw [processWindows]
    rcases hres : c.processNgram w with ⟨c1, o⟩
    rw [hres] at hstep
    cases o with
    | ok => exact ih c1 hstep (fun w1 hw1 => hws w1 (by simp [hw1]))
    | error m => exact hstep
    | panic => exact hstep

theorem mem_of_mem_windows (n : Nat) (t : List String) (w : List String)
    (hw : w ∈ windows n t) : ∀ tok ∈ w, tok ∈ t := by
  unfold windows at hw
  rw [List.mem_map] at hw
  obtain ⟨i, _, rfl⟩ := hw
  intro tok htok
  exact List.mem_of_mem_drop (List.mem_of_mem_take htok)

theorem invariant_ProcessText (P : String → Prop) (hP : ∀ s, P s → s ≠ "")
    (c : NGramChain) (t : List String) (hinv : c.Invariant P) (ht : ∀ tok ∈ t, P tok) :
    (c.ProcessText t).1.Invariant P := by
  rw [ProcessText_eq_processWindows c t (by have := hinv.1; omega)]
  exact invariant_processWindows P hP (windows c.n t) c hinv
    (fun w hw tok htok => ht tok (mem_of_mem_windows c.n t w hw tok htok))

theorem invariant_of_reachable (P : String → Prop) (hP : ∀ s, P s → s ≠ "")
    (c : NGramChain) (h : ReachableBy P c) : c.Invariant P := by
  induction h with
  | new intn n c hnew =>
    unfold NewNGramChain at hnew
    by_cases hn : n ≤ 1
    · rw [if_pos hn] at hnew
      exact absurd hnew (by simp)
    · rw [if_neg hn] at hnew
      injection hnew with hnew
      subst hnew
      refine ⟨by show 2 ≤ n; omega, ?_, ?_, ?_⟩
      · intro key cands hlook
        rw [AList.lookup_empty] at hlook
        exact absurd hlook (by simp)
      · intro s hs; simp at hs
      · exact List.nodup_nil
  | ngram c input _ hinput ih => exact invariant_processNgram P hP c input ih hinput
  | text c tokens _ htokens ih => exact invariant_ProcessText P hP c tokens ih htokens

/-- C23: in every state reachable from `NewNGramChain(n)` by any sequence
of `processNgram` and `ProcessText` calls on non-empty tokens, every
candidate set stored in the table has at least one entry, every entry
frequency is at least 1 and occurrences is at least 1 (the bound that
`selectCandidate` passes to the random function is positive), every
element of `seeds` is a key of the table, and no context is in `seeds`
more than once. -/
theorem C23_reachable_chain_well_formed (c : NGramChain)
    (h : ReachableBy (fun s => s ≠ "") c) :
    (∀ key cands, c.store.lookup key = some cands →
      cands.words ≠ [] ∧ (∀ e ∈ cands.words, 1 ≤ e.frequency) ∧ 1 ≤ cands.occurrences ∧
      0 < cands.occurrences) ∧
    (∀ s ∈ c.seeds, s ∈ c.store) ∧ c.seeds.Nodup ∧ c.WellFormed := by
  obtain ⟨_, hstore, hseeds, hnodup⟩ := invariant_of_reachable _ (fun _ hs => hs) c h
  have hwf : ∀ key cands, c.store.lookup key = some cands → cands.WellFormed := by
    intro key cands hlook
    obtain ⟨_, h1, h2, h3, _⟩ := hstore key cands hlook
    exact ⟨h1, fun e he => (h2 e he).1, h3⟩
  refine ⟨?_, hseeds, hnodup, hwf, hseeds, hnodup⟩
  intro key cands hlook
  obtain ⟨h1, h2, h3⟩ := hwf key cands hlook
  exact ⟨h1, h2, h3, by omega⟩

theorem C23_reachable_chain_well_formed_witness :
    ReachableBy (fun s => s ≠ "")
      (NGramChain.ProcessText { store := ∅, n := 3, seeds := [], randFunc := fun _ _ => 0 }
        ["I", "am", "batman.", "I", "am", "groot."]).1 ∧
    (NGramChain.ProcessText { store := ∅, n := 3, seeds := [], randFunc := fun _ _ => 0 }
        ["I", "am", "batman.", "I", "am", "groot."]).1.WellFormed :=
  ⟨ReachableBy.text _ _ (ReachableBy.new (fun _ _ => 0) 3 _ rfl) (by decide),
    (C23_reachable_chain_well_formed _
      (ReachableBy.text _ _ (ReachableBy.new (fun _ _ => 0) 3 _ rfl) (by decide))).2.2.2⟩

/-! ## Theorems: generated text and observed n-grams -/

theorem emitted_succ (c : NGramChain) (start : String) (k : Nat) :
    c.emitted start (k + 1) = c.emitted start k ++ [c.candidateAt start k] := by
  simp [NGramChain.emitted, List.range_succ]

theorem emitted_length (c : NGramChain) (start : String) (k : Nat) :
    (c.emitted start k).length = k := by
  simp [NGramChain.emitted]

theorem emitted_take (c : NGramChain) (start : String) (i k : Nat) (h : i ≤ k) :
    (c.emitted start k).take i = c.emitted start i := by
  unfold NGramChain.emitted
  rw [← List.map_take, List.take_range, Nat.min_eq_left h]

theorem textAfter_succ (c : NGramChain) (start : String) (k : Nat) :
    c.textAfter start (k + 1) = c.textAfter start k ++ " " ++ c.candidateAt start k := by
  simp [NGramChain.textAfter, List.range_succ, List.foldl_append]

theorem intercalate_go_append (s x : String) (l : List String) :
    ∀ acc : String, String.intercalate.go acc s (l ++ [x])
      = String.intercalate.go acc s l ++ s ++ x := by
  induction l with
  | nil => intro acc; simp [String.intercalate.go]
  | cons a l ih =>
    intro acc
    rw [List.cons_append, String.intercalate.go, String.intercalate.go, ih]

theorem joinSpace_append_singleton (l : List String) (x : String) (hl : l ≠ []) :
    joinSpace (l ++ [x]) = joinSpace l ++ " " ++ x := by
  cases l with
  | nil => exact absurd rfl hl
  | cons a l =>
    unfold joinSpace
    rw [List.cons_append, String.intercalate, String.intercalate, intercalate_go_append]

theorem textAfter_eq_joinSpace (c : NGramChain) (ts0 : List String) (h0 : ts0 ≠ []) (k : Nat) :
    c.textAfter (joinSpace ts0) k = joinSpace (ts0 ++ c.emitted (joinSpace ts0) k) := by
  induction k with
  | zero => simp [NGramChain.textAfter, NGramChain.emitted]
  | succ k ih =>
    rw [textAfter_succ, ih, emitted_succ, ← List.append_assoc,
      joinSpace_append_singleton _ _ (by simp [h0])]

theorem selectCandidate_sound (P : String → Prop) (cands : candidates)
    (randFunc : Int → Int) (hs : cands.Sound P)
    (hr : 0 ≤ randFunc cands.occurrences ∧ randFunc cands.occurrences < cands.occurrences) :
    ∃ e, e ∈ cands.words ∧ cands.selectCandidate randFunc = e.word ∧ 1 ≤ e.frequency ∧
      P e.word := by
  obtain ⟨e, hmem, hsel, hf⟩ := selectWalk_in_range (randFunc cands.occurrences) cands.words 0
    hr.1 (by rw [zero_add, ← hs.2.2.2]; exact hr.2)
  exact ⟨e, hmem, by simp [candidates.selectCandidate, hsel], hf, (hs.2.1 e hmem).2⟩
theorem contextAfter_succ_of_lookup (c : NGramChain) (start : String) (i : Nat)
    (cands : candidates) (h : c.store.lookup (c.contextAfter start i) = some cands) :
    c.contextAfter start (i + 1)
        = nextContext (c.contextAfter start i) (cands.selectCandidate (c.randFunc (i + 1))) ∧
    c.candidateAt start i = cands.selectCandidate (c.randFunc (i + 1)) := by
  constructor
  · simp [NGramChain.contextAfter, h]
  · simp [NGramChain.candidateAt, h]

theorem generation_trace (c : NGramChain) (hinv : c.Invariant isToken) (hrand : c.RandInRange)
    (ts0 : List String) (hlen0 : ts0.length = c.n - 1) (hfree0 : ∀ s ∈ ts0, spaceFree s) :
    ∀ i : Nat, (∀ j, j < i → c.contextAfter (joinSpace ts0) j ∈ c.store) →
      c.contextAfter (joinSpace ts0) i
          = joinSpace ((ts0 ++ c.emitted (joinSpace ts0) i).drop i) ∧
      (∀ s ∈ c.emitted (joinSpace ts0) i, spaceFree s) ∧
      (∀ j, j < i → ∃ cands e,
        c.store.lookup (c.contextAfter (joinSpace ts0) j) = some cands ∧ e ∈ cands.words ∧
        e.word = c.candidateAt (joinSpace ts0) j ∧ 1 ≤ e.frequency) := by
  have hn := hinv.1
  intro i
  induction i with
  | zero =>
    intro _
    refine ⟨by simp [NGramChain.contextAfter, NGramChain.emitted], ?_, ?_⟩
    · intro s hs; simp [NGramChain.emitted] at hs
    · intro j hj; omega
  | succ i ih =>
    intro hkeys
    obtain ⟨hctx, hfree, hentries⟩ := ih (fun j hj => hkeys j (by omega))
    have hmem := hkeys i (by omega)
    obtain ⟨cands, hlook⟩ : ∃ cands, c.store.lookup (c.contextAfter (joinSpace ts0) i)
        = some cands := by
      rw [← AList.lookup_isSome] at hmem
      exact Option.isSome_iff_exists.1 hmem
    obtain ⟨hnext, hcand⟩ := contextAfter_succ_of_lookup c (joinSpace ts0) i cands hlook
    have hsound := (hinv.2.1 _ cands hlook).2
    have hr := hrand (i + 1) cands.occurrences (by have := hsound.2.2.1; omega)
    obtain ⟨e, he, hsel, hf, hP⟩ := selectCandidate_sound isToken cands (c.randFunc (i + 1))
      hsound hr
    have hcandfree : spaceFree (c.candidateAt (joinSpace ts0) i) := by
      rw [hcand, hsel]; exact hP.1
    have hLlen : ((ts0 ++ c.emitted (joinSpace ts0) i).drop i).length = c.n - 1 := by
      rw [List.length_drop, List.length_append, emitted_length]; omega
    have hLfree : ∀ s ∈ (ts0 ++ c.emitted (joinSpace ts0) i).drop i, spaceFree s := by
      intro s hs
      have := List.mem_of_mem_drop hs
      rcases List.mem_append.1 this with h | h
      · exact hfree0 s h
      · exact hfree s h
    obtain ⟨a, l, hL⟩ : ∃ a l, (ts0 ++ c.emitted (joinSpace ts0) i).drop i = a :: l := by
      cases hd : (ts0 ++ c.emitted (joinSpace ts0) i).drop i with
      | nil => rw [hd] at hLlen; simp at hLlen; omega
      | cons a l => exact ⟨a, l, rfl⟩
    refine ⟨?_, ?_, ?_⟩
    · have hdrop : (ts0 ++ c.emitted (joinSpace ts0) (i + 1)).drop (i + 1)
          = ((ts0 ++ c.emitted (joinSpace ts0) i).drop i).tail
            ++ [c.candidateAt (joinSpace ts0) i] := by
        have hle : i + 1 ≤ (ts0 ++ c.emitted (joinSpace ts0) i).length := by
          rw [List.length_append, emitted_length]; omega
        rw [emitted_succ, ← List.append_assoc, List.drop_append_of_le_length hle,
          List.tail_drop]
      rw [hnext, ← hcand, hctx, hdrop]
      unfold nextContext
      rw [hL, splitSpace_joinSpace l a (by rw [← hL]; exact hLfree)]
    · intro s hs
      rw [emitted_succ, List.mem_append, List.mem_singleton] at hs
      rcases hs with h | h
      · exact hfree s h
      · rw [h]; exact hcandfree
    · intro j hj
      by_cases hji : j < i
      · exact hentries j hji
      · have : j = i := by omega
        subst this
        exact ⟨cands, e, hlook, he, by rw [hcand, hsel], hf⟩

theorem window_of_output (c : NGramChain) (start : String) (ts0 : List String)
    (hlen0 : ts0.length = c.n - 1) (i k : Nat) (hik : i ≤ k) :
    ((ts0 ++ c.emitted start k).drop i).take (c.n - 1)
      = (ts0 ++ c.emitted start i).drop i := by
  rw [List.take_drop, List.take_append_eq_append_take, List.take_of_length_le (by omega), hlen0,
    show i + (c.n - 1) - (c.n - 1) = i by omega, emitted_take c start i k hik]

theorem getRandomNGram_mem (c : NGramChain) (iter : List String) (hrand : c.RandInRange)
    (hstore : c.store.keys ≠ []) (hseeds : ∀ s ∈ c.seeds, s ∈ c.store)
    (hiter : iter.Perm c.store.keys) :
    ∃ start, c.getRandomNGram iter = some start ∧ start ∈ c.store := by
  unfold NGramChain.getRandomNGram
  by_cases hs : c.seeds.length > 0
  · rw [if_pos hs]
    have hr := hrand 0 c.seeds.length (by exact_mod_cast hs)
    simp only []
    rw [if_pos hr]
    have hlt : (c.randFunc 0 c.seeds.length).toNat < c.seeds.length := by omega
    refine ⟨c.seeds[(c.randFunc 0 c.seeds.length).toNat], by simp [hlt], ?_⟩
    exact hseeds _ (List.getElem_mem _)
  · rw [if_neg hs]
    have hlen : iter.length = c.storeLen := by
      unfold NGramChain.storeLen
      exact hiter.length_eq
    have hpos : 0 < c.storeLen := by
      unfold NGramChain.storeLen
      exact List.length_pos.2 hstore
    have hr := hrand 0 c.storeLen (by exact_mod_cast hpos)
    refine ⟨_, rfl, ?_⟩
    rw [AList.mem_keys]
    exact hiter.mem_iff.1 (rangeWalk_mem iter _ hr.1 (by rw [hlen]; exact hr.2))
theorem splitSpaceChars_append_spaceFree (b : List Char) (hb : ' ' ∉ b) (a : List Char) :
    ∃ init last, splitSpaceChars a = init ++ [last] ∧
      splitSpaceChars (a ++ b) = init ++ [last ++ b] := by
  induction a with
  | nil => exact ⟨[], [], rfl, by simpa using splitSpaceChars_spaceFree b hb⟩
  | cons ch rest ih =>
    obtain ⟨init, last, h1, h2⟩ := ih
    by_cases hch : ch = ' '
    · refine ⟨[] :: init, last, ?_, ?_⟩
      · rw [splitSpaceChars, if_pos hch, h1]; rfl
      · rw [List.cons_append, splitSpaceChars, if_pos hch, h2]; rfl
    · cases init with
      | nil =>
        refine ⟨[], ch :: last, ?_, ?_⟩
        · rw [splitSpaceChars, if_neg hch, h1]; rfl
        · rw [List.cons_append, splitSpaceChars, if_neg hch, h2]; rfl
      | cons p ps =>
        refine ⟨(ch :: p) :: ps, last, ?_, ?_⟩
        · rw [splitSpaceChars, if_neg hch, h1]; rfl
        · rw [List.cons_append, splitSpaceChars, if_neg hch, h2]; rfl

theorem splitSpace_append_period (s : String) :
    ∃ init last, splitSpace s = init ++ [last] ∧ splitSpace (s ++ ".") = init ++ [last ++ "."] := by
  obtain ⟨init, last, h1, h2⟩ := splitSpaceChars_append_spaceFree ".".data (by decide) s.data
  refine ⟨init.map String.mk, String.mk last, ?_, ?_⟩
  · unfold splitSpace; rw [h1]; simp
  · unfold splitSpace
    rw [String.data_append, h2]
    simp only [List.map_append, List.map_cons, List.map_nil]
    rfl

theorem window_before_last (init : List String) (x y : String) (i m : Nat)
    (h : i + m ≤ init.length) :
    ((init ++ [x]).drop i).take m = ((init ++ [y]).drop i).take m := by
  rw [List.drop_append_of_le_length (by omega), List.drop_append_of_le_length (by omega),
    List.take_append_of_le_length (by rw [List.length_drop]; omega),
    List.take_append_of_le_length (by rw [List.length_drop]; omega)]
/-- C22: generated text only contains observed n-grams.  For a chain
reached from `NewNGramChain(n)` by training calls on tokens (non-empty,
without a space), a random function with values in `[0, bound)`, the
`range` over the table yielding each key once, and every `maxWords`: with
an empty table nothing is emitted; otherwise the text built before the
period check is the `n - 1` words of the starting context followed by the
`k ≤ maxWords` emitted candidates, the final period leaves the words
before the last one as they are, and the candidate emitted at step `i`
(the word at position `n - 1 + i`) is an entry with frequency at least 1 of
the candidate set stored under the key formed by the `n - 1` words that
immediately precede it in the output, joined by single spaces. -/
theorem C22_generated_ngrams_observed (c : NGramChain) (iter : List String) (maxWords : Nat)
    (hreach : ReachableBy isToken c) (hrand : c.RandInRange)
    (hiter : iter.Perm c.store.keys) :
    (c.store.keys = [] → c.GenerateRandomText iter maxWords = some "") ∧
    (c.store.keys ≠ [] → ∃ start k text,
      c.getRandomNGram iter = some start ∧ k ≤ maxWords ∧
      c.generateBody iter maxWords = some (c.textAfter start k) ∧
      c.GenerateRandomText iter maxWords = some text ∧
      text = (if hasSuffix (c.textAfter start k) "." then c.textAfter start k
            else c.textAfter start k ++ ".") ∧
      splitSpace (c.textAfter start k) = splitSpace start ++ c.emitted start k ∧
      (splitSpace start).length = c.n - 1 ∧
      ∀ i, i < k → ∃ cands e,
        (splitSpace (c.textAfter start k))[c.n - 1 + i]? = some (c.candidateAt start i) ∧
        ((splitSpace text).drop i).take (c.n - 1)
          = ((splitSpace (c.textAfter start k)).drop i).take (c.n - 1) ∧
        c.store.lookup (joinSpace (((splitSpace text).drop i).take (c.n - 1))) = some cands ∧
        e ∈ cands.words ∧ e.word = c.candidateAt start i ∧ 1 ≤ e.frequency) := by
  have hinv := invariant_of_reachable isToken (fun _ hs => hs.2) c hreach
  have hn := hinv.1
  constructor
  · intro h
    unfold NGramChain.GenerateRandomText NGramChain.storeLen
    simp [h]
  · intro hstore
    obtain ⟨start, hstart, hmem⟩ := getRandomNGram_mem c iter hrand hstore hinv.2.2.1 hiter
    obtain ⟨cands0, hlook0⟩ : ∃ cands, c.store.lookup start = some cands := by
      rw [← AList.lookup_isSome] at hmem
      exact Option.isSome_iff_exists.1 hmem
    obtain ⟨⟨ts0, hlen0, hP0, hkey0⟩, _⟩ := hinv.2.1 start cands0 hlook0
    subst hkey0
    have hfree0 : ∀ s ∈ ts0, spaceFree s := fun s hs => (hP0 s hs).1
    have hne0 : ts0 ≠ [] := by
      intro h; rw [h] at hlen0; simp at hlen0; omega
    obtain ⟨a0, l0, hts0⟩ : ∃ a l, ts0 = a :: l := by
      cases ts0 with
      | nil => exact absurd rfl hne0
      | cons a l => exact ⟨a, l, rfl⟩
    have hsplit0 : splitSpace (joinSpace ts0) = ts0 := by
      rw [hts0]
      exact splitSpace_joinSpace l0 a0 (by rw [← hts0]; exact hfree0)
    obtain ⟨k, hk, hin, _, heq⟩ :=
      generateLoop_trace c (joinSpace ts0) maxWords 0 (joinSpace ts0)
    have hbody : c.generateBody iter maxWords = some (c.textAfter (joinSpace ts0) k) := by
      simp only [NGramChain.generateBody, hstart, NGramChain.textAfter]
      simp only [Nat.zero_add, NGramChain.contextAfter] at heq
      rw [heq]
    have hkeys : ∀ j, j < k → c.contextAfter (joinSpace ts0) j ∈ c.store := by
      intro j hj
      have := hin j hj
      rw [Nat.zero_add] at this
      exact this
    obtain ⟨_, hfreek, hentries⟩ := generation_trace c hinv hrand ts0 hlen0 hfree0 k hkeys
    have hwords : splitSpace (c.textAfter (joinSpace ts0) k)
        = ts0 ++ c.emitted (joinSpace ts0) k := by
      rw [textAfter_eq_joinSpace c ts0 hne0 k]
      have hall : ∀ s ∈ ts0 ++ c.emitted (joinSpace ts0) k, spaceFree s := by
        intro s hs
        rcases List.mem_append.1 hs with h | h
        · exact hfree0 s h
        · exact hfreek s h
      obtain ⟨b, m, hbm⟩ : ∃ b m, ts0 ++ c.emitted (joinSpace ts0) k = b :: m :=
        ⟨a0, l0 ++ c.emitted (joinSpace ts0) k, by rw [hts0]; rfl⟩
      rw [hbm] at hall ⊢
      exact splitSpace_joinSpace m b hall
    have hwin : ∀ i, i < k →
        ((splitSpace (if hasSuffix (c.textAfter (joinSpace ts0) k) "." then
            c.textAfter (joinSpace ts0) k else c.textAfter (joinSpace ts0) k ++ ".")).drop
          i).take (c.n - 1)
        = ((splitSpace (c.textAfter (joinSpace ts0) k)).drop i).take (c.n - 1) := by
      intro i hi
      by_cases hsuf : hasSuffix (c.textAfter (joinSpace ts0) k) "." = true
      · rw [if_pos hsuf]
      · rw [if_neg hsuf]
        obtain ⟨init, last, h1, h2⟩ := splitSpace_append_period (c.textAfter (joinSpace ts0) k)
        have hlen : init.length + 1 = c.n - 1 + k := by
          have := congrArg List.length h1
          rw [hwords, List.length_append, List.length_append, emitted_length, hlen0] at this
          simpa using this.symm
        rw [h1, h2]
        exact window_before_last init _ _ i (c.n - 1) (by omega)
    refine ⟨joinSpace ts0, k, _, hstart, hk, hbody, ?_, rfl, by rw [hwords, hsplit0],
      by rw [hsplit0, hlen0], ?_⟩
    · rw [GenerateRandomText_eq_map c iter maxWords hstore, hbody]
      rfl
    · intro i hi
      obtain ⟨hctxi, _, _⟩ := generation_trace c hinv hrand ts0 hlen0 hfree0 i
        (fun j hj => hkeys j (by omega))
      obtain ⟨cands, e, hlook, he, hword, hf⟩ := hentries i hi
      refine ⟨cands, e, ?_, hwin i hi, ?_, he, hword, hf⟩
      · rw [hwords, List.getElem?_append_right (by omega), hlen0,
          show c.n - 1 + i - (c.n - 1) = i by omega]
        unfold NGramChain.emitted
        rw [List.getElem?_map, List.getElem?_range hi]
        rfl
      · rw [hwin i hi, hwords,
          window_of_output c (joinSpace ts0) ts0 hlen0 i k (by omega), ← hctxi]
        exact hlook
theorem C22_generated_ngrams_observed_witness :
    (ReachableBy isToken trainedExample ∧ trainedExample.RandInRange ∧
      trainedExample.store.keys.Perm trainedExample.store.keys) ∧
    trainedExample.GenerateRandomText trainedExample.store.keys 5
      = some "I am batman. I am batman. I." ∧
    ∃ start k text,
      trainedExample.getRandomNGram trainedExample.store.keys = some start ∧ k ≤ 5 ∧
      trainedExample.generateBody trainedExample.store.keys 5
        = some (trainedExample.textAfter start k) ∧
      trainedExample.GenerateRandomText trainedExample.store.keys 5 = some text ∧
      text = (if hasSuffix (trainedExample.textAfter start k) "." then
            trainedExample.textAfter start k
          else trainedExample.textAfter start k ++ ".") ∧
      splitSpace (trainedExample.textAfter start k)
        = splitSpace start ++ trainedExample.emitted start k ∧
      (splitSpace start).length = trainedExample.n - 1 ∧
      ∀ i, i < k → ∃ cands e,
        (splitSpace (trainedExample.textAfter start k))[trainedExample.n - 1 + i]?
          = some (trainedExample.candidateAt start i) ∧
        ((splitSpace text).drop i).take (trainedExample.n - 1)
          = ((splitSpace (trainedExample.textAfter start k)).drop i).take
              (trainedExample.n - 1) ∧
        trainedExample.store.lookup
            (joinSpace (((splitSpace text).drop i).take (trainedExample.n - 1)))
          = some cands ∧
        e ∈ cands.words ∧ e.word = trainedExample.candidateAt start i ∧ 1 ≤ e.frequency :=
  ⟨⟨ReachableBy.text _ _ (ReachableBy.new (fun _ _ => 0) 3 _ rfl) (by decide),
      fun _ _ h => ⟨le_refl 0, h⟩, List.Perm.refl _⟩,
    by decide,
    (C22_generated_ngrams_observed trainedExample trainedExample.store.keys 5
      (ReachableBy.text _ _ (ReachableBy.new (fun _ _ => 0) 3 _ rfl) (by decide))
      (fun _ _ h => ⟨le_refl 0, h⟩) (List.Perm.refl _)).2 (by decide)⟩

/-! ## Theorems: the generation loop against its specification -/

theorem splitSpaceChars_ne_nil (l : List Char) : splitSpaceChars l ≠ [] := by
  cases l with
  | nil => simp [splitSpaceChars]
  | cons ch rest =>
    unfold splitSpaceChars
    split
    · simp
    · split <;> simp

theorem joinSpace_splitSpaceChars (l : List Char) :
    (joinSpace ((splitSpaceChars l).map String.mk)).data = l := by
  induction l with
  | nil => rfl
  | cons ch rest ih =>
    obtain ⟨p, ps, hp⟩ : ∃ p ps, splitSpaceChars rest = p :: ps := by
      cases h : splitSpaceChars rest with
      | nil => exact absurd h (splitSpaceChars_ne_nil rest)
      | cons p ps => exact ⟨p, ps, rfl⟩
    rw [hp] at ih
    by_cases hch : ch = ' '
    · rw [splitSpaceChars, if_pos hch, hp]
      simp only [List.map_cons] at ih ⊢
      rw [joinSpace_cons_cons_data, ih, hch]
      rfl
    · rw [splitSpaceChars, if_neg hch, hp]
      cases ps with
      | nil =>
        simp only [List.map_cons, List.map_nil] at ih ⊢
        rw [joinSpace_singleton_data] at ih ⊢
        show ch :: p = ch :: rest
        rw [show p = rest from ih]
      | cons q qs =>
        simp only [List.map_cons] at ih ⊢
        rw [joinSpace_cons_cons_data] at ih ⊢
        show ch :: (p ++ ' ' :: _) = ch :: rest
        rw [← ih]

theorem joinSpace_splitSpace (s : String) : joinSpace (splitSpace s) = s := by
  apply String.ext
  unfold splitSpace
  exact joinSpace_splitSpaceChars s.data

theorem dropFirstWord_none (l : List Char) (h : dropFirstWord l = none) : ' ' ∉ l := by
  induction l with
  | nil => simp
  | cons ch rest ih =>
    unfold dropFirstWord at h
    by_cases hch : ch = ' '
    · rw [if_pos hch] at h; exact absurd h (by simp)
    · rw [if_neg hch] at h
      intro hmem
      rcases List.mem_cons.1 hmem with h1 | h1
      · exact hch h1.symm
      · exact ih h h1

theorem dropFirstWord_some (l rest : List Char) (h : dropFirstWord l = some rest) :
    ∃ a, ' ' ∉ a ∧ l = a ++ ' ' :: rest := by
  induction l with
  | nil => simp [dropFirstWord] at h
  | cons ch tl ih =>
    unfold dropFirstWord at h
    by_cases hch : ch = ' '
    · rw [if_pos hch] at h
      injection h with h
      exact ⟨[], by simp, by rw [hch, h]; rfl⟩
    · rw [if_neg hch] at h
      obtain ⟨a, ha, hl⟩ := ih h
      refine ⟨ch :: a, ?_, by rw [hl]; rfl⟩
      intro hmem
      rcases List.mem_cons.1 hmem with h1 | h1
      · exact hch h1.symm
      · exact ha h1

theorem nextContext_eq_advanceContext (ngram candidate : String) :
    nextContext ngram candidate = advanceContext ngram candidate := by
  unfold nextContext advanceContext
  cases hd : dropFirstWord ngram.data with
  | none =>
    have hfree := dropFirstWord_none ngram.data hd
    unfold splitSpace
    rw [splitSpaceChars_spaceFree ngram.data hfree]
    apply String.ext
    simp only [List.map_cons, List.map_nil, List.tail_cons, List.nil_append]
    exact joinSpace_singleton_data candidate
  | some rest =>
    obtain ⟨a, ha, hl⟩ := dropFirstWord_some ngram.data rest hd
    have hsplit : splitSpace ngram = String.mk a :: splitSpace (String.mk rest) := by
      unfold splitSpace
      rw [hl, splitSpaceChars_append_space a rest ha]
      rfl
    have hne : splitSpace (String.mk rest) ≠ [] := by
      unfold splitSpace
      simp [splitSpaceChars_ne_nil]
    rw [hsplit, List.tail_cons, joinSpace_append_singleton _ _ hne, joinSpace_splitSpace]

theorem selectCandidate_eq_sampleCandidate (cands : candidates) (randFunc : Int → Int) :
    cands.selectCandidate randFunc = sampleCandidate cands (randFunc cands.occurrences) := by
  unfold sampleCandidate
  cases hfind : (List.range cands.words.length).find?
      (fun i => decide (cumulative cands.words i > randFunc cands.occurrences)) with
  | none =>
    rw [List.find?_range_eq_none] at hfind
    have := selectWalk_none (randFunc cands.occurrences) cands.words 0 (by
      intro i hi
      have := hfind i hi
      simp only [Bool.not_eq_true', decide_eq_false_iff_not, not_lt] at this
      simpa using this)
    simp [candidates.selectCandidate, this]
  | some i =>
    rw [List.find?_range_eq_some] at hfind
    obtain ⟨hat, hmem, hbefore⟩ := hfind
    have hi : i < cands.words.length := List.mem_range.1 hmem
    have := selectWalk_first (randFunc cands.occurrences) cands.words 0 i hi (by
      intro j hj
      have := hbefore j hj
      simp only [Bool.not_eq_true', decide_eq_false_iff_not, not_lt] at this
      simpa using this) (by simpa using hat)
    simp [candidates.selectCandidate, this, hi]
theorem walkContext_eq_contextAfter (c : NGramChain) (start : String) :
    ∀ i : Nat, c.walkContext start i = c.contextAfter start i := by
  intro i
  induction i with
  | zero => rfl
  | succ i ih =>
    rw [NGramChain.walkContext, NGramChain.contextAfter, ih]
    cases c.store.lookup (c.contextAfter start i) with
    | none => rfl
    | some cands =>
      simp only []
      rw [nextContext_eq_advanceContext, selectCandidate_eq_sampleCandidate]

theorem walkCandidate_eq_candidateAt (c : NGramChain) (start : String) (i : Nat) :
    c.walkCandidate start i = c.candidateAt start i := by
  rw [NGramChain.walkCandidate, NGramChain.candidateAt, walkContext_eq_contextAfter]
  cases c.store.lookup (c.contextAfter start i) with
  | none => rfl
  | some cands =>
    simp only []
    rw [selectCandidate_eq_sampleCandidate]

theorem walkText_eq_textAfter (c : NGramChain) (start : String) (k : Nat) :
    c.walkText start k = c.textAfter start k := by
  unfold NGramChain.walkText NGramChain.textAfter
  congr 1
  funext text i
  rw [walkCandidate_eq_candidateAt]

/-- C9: for a chain with a non-empty table, `GenerateRandomText` ends with
the period check applied to the text built so far; a random function with
values in `[0, bound)` gives a starting context; and for the starting
context `start`, the text built before the period check is the text of the
specified walk: `start` followed by `k` sampled candidates, each preceded
by one space, where `k ≤ maxWords`, every context of the walk before step
`k` is a key of the table, and `k < maxWords` only if the context reached
after `k` steps (each step drops the first word of the context and appends
the candidate sampled from the set stored under it) is not a key of the
table; with `maxWords = 0` the text is the starting context alone. -/
theorem C9_generated_text_shape (c : NGramChain) (iter : List String) (maxWords : Nat)
    (hstore : c.store.keys ≠ []) :
    c.GenerateRandomText iter maxWords
      = (c.generateBody iter maxWords).map
          (fun text => if hasSuffix text "." then text else text ++ ".") ∧
    (c.RandInRange → ∃ start, c.getRandomNGram iter = some start) ∧
    (∀ start, c.getRandomNGram iter = some start →
      (∃ k, k ≤ maxWords ∧ (∀ i, i < k → c.walkContext start i ∈ c.store) ∧
        (k < maxWords → c.walkContext start k ∉ c.store) ∧
        c.generateBody iter maxWords = some (c.walkText start k)) ∧
      c.generateBody iter 0 = some start) := by
  refine ⟨GenerateRandomText_eq_map c iter maxWords hstore, getRandomNGram_isSome c iter, ?_⟩
  intro start hstart
  constructor
  · obtain ⟨k, hk, hin, hout, heq⟩ := generateLoop_trace c start maxWords 0 start
    refine ⟨k, hk, ?_, ?_, ?_⟩
    · intro i hi
      rw [walkContext_eq_contextAfter]
      simpa using hin i hi
    · intro h
      rw [walkContext_eq_contextAfter]
      simpa using hout h
    · rw [walkText_eq_textAfter]
      simp only [NGramChain.generateBody, hstart, NGramChain.textAfter]
      simp only [Nat.zero_add, NGramChain.contextAfter] at heq
      rw [heq]
  · simp [NGramChain.generateBody, hstart, generateLoop]

theorem C9_generated_text_shape_witness :
    (multipleBigramsChain.store.keys ≠ [] ∧
      multipleBigramsChain.getRandomNGram [] = some "It's a") ∧
    (multipleBigramsChain.walkContext "It's a" 5 = "live on" ∧
      "live on" ∉ multipleBigramsChain.store ∧
      multipleBigramsChain.walkText "It's a" 5 = "It's a wonderful planet we live on" ∧
      multipleBigramsChain.generateBody [] 100 = some "It's a wonderful planet we live on" ∧
      multipleBigramsChain.GenerateRandomText [] 100
        = some "It's a wonderful planet we live on.") ∧
    (∃ k, k ≤ 100 ∧
      (∀ i, i < k → multipleBigramsChain.walkContext "It's a" i ∈ multipleBigramsChain.store) ∧
      (k < 100 → multipleBigramsChain.walkContext "It's a" k ∉ multipleBigramsChain.store) ∧
      multipleBigramsChain.generateBody [] 100
        = some (multipleBigramsChain.walkText "It's a" k)) :=
  ⟨⟨by decide, by decide⟩, ⟨by decide, by decide, by decide, by decide, by decide⟩,
    ((C9_generated_text_shape multipleBigramsChain [] 100 (by decide)).2.2 "It's a"
      (by decide)).1⟩

end Markov
